import Mathlib

/-!
Formal model of the repo-maintenance dependency graph engine and cascade
orchestration engine, together with proofs of its behavioural properties.

The definitions below are shallow embeddings of the TypeScript services:
* `DependencyResolver` (buildGraph / getAffected / getDependencies /
  getDependents / calculateLayers),
* `CascadeService` (createPlan / startExecution / executeLoop / executeStep /
  abort / pause / resume / skipStep / setPublishedVersion),
* `TaskQueue` (bounded-concurrency run).

JavaScript `Map` objects are modelled as association lists where `set`
conses the new binding in front (so lookup of the first match realises
overwrite semantics), mutable counters as functions `String → Option Int`,
and the engine's external I/O (spawned commands, npm registry, CI polling,
the clock) as explicit oracle parameters.  While-loops are embedded as
fuel-indexed structural recursions; in each case the fuel passed by the
wrapper is proved (or commented) to dominate the number of iterations the
JavaScript loop can perform, so the embedding computes the same result.
-/

/-- One dependency manifest entry of a repository (shared/types.ts
`InternalDep`).  `repoId` is the resolved internal node id, or `""` when the
dependency target is external (the TS code stores an empty string and
filters with `filter(Boolean)`). -/
structure InternalDep where
  npmName : String
  repoId : String
  versionSpec : String
  deriving Repr, DecidableEq

/-- A repository node (shared/types.ts `Repo`), restricted to the fields the
graph engine and cascade engine read.  `dependents` is the derived inverse
of the resolved `dependencies` edges. -/
structure Repo where
  id : String
  npmPackage : String
  version : String
  dependencies : List InternalDep
  dependents : List String
  deriving Repr, DecidableEq

/-- One affected node in an `AffectedResult` (shared/types.ts
`AffectedRepo`). -/
structure AffectedRepo where
  id : String
  layer : Nat
  dependencyPath : List String
  deriving Repr, DecidableEq

/-- Result of `DependencyResolver.getAffected` (shared/types.ts
`AffectedResult`). -/
structure AffectedResult where
  sourceId : String
  affected : List AffectedRepo
  totalCount : Nat
  deriving Repr, DecidableEq

/-- `new Map(repos.map((r) => [r.id, r]))` followed by `.get id`: the last
entry with a given key wins, absent keys give `none`
(dependency-resolver.ts `repoMap`). -/
def repoLookup (repos : List Repo) (id : String) : Option Repo :=
  repos.foldl (fun acc r => if r.id = id then some r else acc) none

/-- The dependents list the BFS of `getAffected` expands from a node id:
`repoMap.get(id)` followed by `.dependents`, with a missing node expanding
to nothing (`if (!repo) continue`). -/
def dependentsOf (repos : List Repo) (id : String) : List String :=
  match repoLookup repos id with
  | some r => r.dependents
  | none => []

/-- Mutable BFS state of `getAffected`: the `visited` set, the `affected`
accumulator, and the `nextIds` / `nextPaths` buffers built during one pass. -/
structure BfsState where
  visited : List String
  affected : List AffectedRepo
  nextIds : List String
  nextPaths : List (String × List String)
  deriving Repr

/-- Lookup in an association list modelling a JS `Map` (first binding wins;
`set` conses in front, realising overwrite). -/
def alGet {β : Type} (m : List (String × β)) (k : String) : Option β :=
  (m.find? (fun p => p.1 = k)).map (fun p => p.2)

/-- The inner loop of one BFS pass of `getAffected`: scan the `dependents`
of one frontier node, skipping already-visited ids, recording fresh ids in
`visited`, `affected` (at the current `layer`, with path `curPath ++ [id]`),
`nextIds` and `nextPaths`. -/
def bfsInner (layer : Nat) (curPath : List String) (st : BfsState)
    (deps : List String) : BfsState :=
  deps.foldl
    (fun st depId =>
      if st.visited.contains depId then st
      else
        { visited := depId :: st.visited
          affected := st.affected ++ [⟨depId, layer, curPath ++ [depId]⟩]
          nextIds := st.nextIds ++ [depId]
          nextPaths := (depId, curPath ++ [depId]) :: st.nextPaths })
    st

/-- One full pass of the BFS of `getAffected` over the current frontier
`startIds`.  A frontier id missing from the repo map contributes nothing;
its discovery path defaults to `[sourceId]` exactly as
`parentPaths.get(id) || [repoId]` does. -/
def bfsPass (repos : List Repo) (sourceId : String) (layer : Nat)
    (parentPaths : List (String × List String)) (startIds : List String)
    (st : BfsState) : BfsState :=
  startIds.foldl
    (fun st id =>
      match repoLookup repos id with
      | none => st
      | some r =>
          bfsInner layer ((alGet parentPaths id).getD [sourceId]) st r.dependents)
    st

/-- The recursive `bfs` closure of `getAffected`, fuel-indexed.  The
JavaScript recursion stops as soon as a pass discovers nothing new; every
pass before that discovers at least one previously unvisited id drawn from
the finite pool of all `dependents` entries, so any fuel exceeding that pool
size makes the fuel bound unreachable. -/
def bfsGo (repos : List Repo) (sourceId : String) :
    Nat → List String → Nat → List (String × List String) → BfsState → BfsState
  | 0, _, _, _, st => st
  | fuel + 1, startIds, layer, parentPaths, st =>
      let st' := bfsPass repos sourceId layer parentPaths startIds
        { st with nextIds := [], nextPaths := [] }
      if st'.nextIds.isEmpty then st'
      else bfsGo repos sourceId fuel st'.nextIds (layer + 1) st'.nextPaths st'

/-- `DependencyResolver.getAffected`: breadth-first traversal of the
`dependents` relation starting at the source's direct dependents (layer 1),
with a visited set seeded with the source id. -/
def getAffected (repos : List Repo) (repoId : String) : AffectedResult :=
  let fuel := (repos.flatMap (fun r => r.dependents)).length + 1
  let st := bfsGo repos repoId fuel [repoId] 1 [(repoId, [repoId])]
    { visited := [repoId], affected := [], nextIds := [], nextPaths := [] }
  { sourceId := repoId, affected := st.affected, totalCount := st.affected.length }

/-- `DependencyResolver.getDependencies`: resolved dependency ids of a node,
empty for unknown ids (`filter(Boolean)` drops empty-string ids). -/
def getDependencies (repos : List Repo) (repoId : String) : List String :=
  match repoLookup repos repoId with
  | none => []
  | some r => (r.dependencies.map (fun d => d.repoId)).filter (fun s => s ≠ "")

/-- `DependencyResolver.getDependents`: stored dependents of a node, empty
for unknown ids. -/
def getDependents (repos : List Repo) (repoId : String) : List String :=
  match repoLookup repos repoId with
  | none => []
  | some r => r.dependents

/-! ### Reachability along the dependents relation

`reachN repos src n x` states that `x` can be reached from `src` in exactly
`n` hops of the relation "`x` is listed in the dependents of `y`", where a
hop expands a node through `repoLookup` exactly as the BFS of `getAffected`
does (ids absent from the repo map expand to nothing). -/

def reachN (repos : List Repo) (src : String) : Nat → String → Prop
  | 0, x => x = src
  | n + 1, x => ∃ y, reachN repos src n y ∧ x ∈ dependentsOf repos y

/-- The three-repo scenario of spec §8: `lib-a` with dependents `lib-b` and
`lib-c`; `lib-b` depends on `lib-a` and has dependent `lib-c`; `lib-c`
depends on both `lib-a` and `lib-b`. -/
def scenarioLibA : Repo :=
  { id := "lib-a", npmPackage := "@test/lib-a", version := "1.0.0"
    dependencies := [], dependents := ["lib-b", "lib-c"] }

def scenarioLibB : Repo :=
  { id := "lib-b", npmPackage := "@test/lib-b", version := "1.0.0"
    dependencies := [⟨"@test/lib-a", "lib-a", "^1.0.0"⟩]
    dependents := ["lib-c"] }

def scenarioLibC : Repo :=
  { id := "lib-c", npmPackage := "@test/lib-c", version := "1.0.0"
    dependencies := [⟨"@test/lib-a", "lib-a", "^1.0.0"⟩,
                     ⟨"@test/lib-b", "lib-b", "^1.0.0"⟩]
    dependents := [] }

def scenarioRepos : List Repo := [scenarioLibA, scenarioLibB, scenarioLibC]

/-- C3, counterexample: on the spec §8 scenario input the claim asserts
`lib-c` at layer 2 with path `["lib-a","lib-b","lib-c"]`; but `lib-c` is a
direct dependent of `lib-a`, so the breadth-first traversal discovers it at
layer 1 with path `["lib-a","lib-c"]` — the claimed conjunction is false. -/
theorem C3_counterexample :
    ¬ ((getAffected scenarioRepos "lib-a").totalCount = 2 ∧
       (∃ e ∈ (getAffected scenarioRepos "lib-a").affected,
          e.id = "lib-b" ∧ e.layer = 1) ∧
       (∃ e ∈ (getAffected scenarioRepos "lib-a").affected,
          e.id = "lib-c" ∧ e.layer = 2 ∧
          e.dependencyPath = ["lib-a", "lib-b", "lib-c"])) := by
  decide

/-- C3 (amended): on the spec §8 scenario input, `getAffected "lib-a"`
returns `totalCount = 2`, `lib-b` at layer 1 with path
`["lib-a","lib-b"]`, and `lib-c` at layer 1 (it is a direct dependent of
`lib-a`) with path `["lib-a","lib-c"]`. -/
theorem C3_getAffected_scenario :
    getAffected scenarioRepos "lib-a" =
      { sourceId := "lib-a"
        affected := [⟨"lib-b", 1, ["lib-a", "lib-b"]⟩,
                     ⟨"lib-c", 1, ["lib-a", "lib-c"]⟩]
        totalCount := 2 } := by
  decide

/-- `distMin repos src d x`: `d` is the breadth-first minimum distance of
`x` from `src` along the dependents relation. -/
def distMin (repos : List Repo) (src : String) (d : Nat) (x : String) : Prop :=
  reachN repos src d x ∧ ∀ m < d, ¬ reachN repos src m x

theorem reachN_zero {repos : List Repo} {src x : String} :
    reachN repos src 0 x ↔ x = src := Iff.rfl

theorem reach_exists_min {repos : List Repo} {src : String} {n : Nat} {x : String}
    (h : reachN repos src n x) : ∃ d, d ≤ n ∧ distMin repos src d x := by
  induction n using Nat.strong_induction_on with
  | _ n ih =>
    by_cases hm : ∃ m, m < n ∧ reachN repos src m x
    · obtain ⟨m, hmn, hr⟩ := hm
      obtain ⟨d, hdm, hdist⟩ := ih m hmn hr
      exact ⟨d, le_of_lt (lt_of_le_of_lt hdm hmn), hdist⟩
    · push_neg at hm
      exact ⟨n, le_refl n, h, fun m hmn => hm m hmn⟩

theorem distMin_unique {repos : List Repo} {src : String} {d d' : Nat} {x : String}
    (h : distMin repos src d x) (h' : distMin repos src d' x) : d = d' := by
  rcases Nat.lt_trichotomy d d' with hlt | heq | hgt
  · exact absurd h.1 (h'.2 d hlt)
  · exact heq
  · exact absurd h'.1 (h.2 d' hgt)

/-- A node at minimum distance `d + 1` has a predecessor at minimum
distance `d` whose dependents list contains it. -/
theorem distMin_pred {repos : List Repo} {src : String} {d : Nat} {x : String}
    (h : distMin repos src (d + 1) x) :
    ∃ y, distMin repos src d y ∧ x ∈ dependentsOf repos y := by
  obtain ⟨y, hy, hxy⟩ := h.1
  obtain ⟨d', hd'le, hdist⟩ := reach_exists_min hy
  have : reachN repos src (d' + 1) x := ⟨y, hdist.1, hxy⟩
  have hd' : d' = d := by
    by_contra hne
    have : d' + 1 < d + 1 := by omega
    exact h.2 (d' + 1) this ⟨y, hdist.1, hxy⟩
  exact ⟨y, hd' ▸ hdist, hxy⟩

/-- If no node sits at minimum distance `k`, no node sits at any larger
distance either (a BFS level that discovers nothing ends the traversal). -/
theorem distMin_no_gap {repos : List Repo} {src : String} {k : Nat}
    (h : ∀ z, ¬ distMin repos src k z) :
    ∀ j z, ¬ distMin repos src (k + j) z := by
  intro j
  induction j with
  | zero => exact h
  | succ j ih =>
    intro z hz
    obtain ⟨y, hy, _⟩ := distMin_pred (by rw [show k + (j + 1) = (k + j) + 1 by omega] at hz; exact hz)
    exact ih y hy

theorem repoLookup_mem {repos : List Repo} {id : String} {r : Repo}
    (h : repoLookup repos id = some r) : r ∈ repos ∧ r.id = id := by
  unfold repoLookup at h
  induction repos using List.reverseRecOn with
  | nil => simp at h
  | append_singleton l a ih =>
    rw [List.foldl_append] at h
    simp only [List.foldl_cons, List.foldl_nil] at h
    by_cases ha : a.id = id
    · simp [ha] at h
      subst h
      exact ⟨List.mem_append_right _ (List.mem_singleton_self a), ha⟩
    · simp [ha] at h
      obtain ⟨hm, hid⟩ := ih h
      exact ⟨List.mem_append_left _ hm, hid⟩

/-- Filtered layer list of the `affected` accumulator for one id. -/
def layersFor (aff : List AffectedRepo) (z : String) : List Nat :=
  (aff.filter (fun a => a.id = z)).map (fun a => a.layer)

theorem bfsInner_visited (layer : Nat) (curPath : List String) :
    ∀ (deps : List String) (st : BfsState) (z : String),
      z ∈ (bfsInner layer curPath st deps).visited ↔
        z ∈ st.visited ∨ z ∈ deps := by
  intro deps
  induction deps with
  | nil => intro st z; simp [bfsInner]
  | cons d rest ih =>
    intro st z
    by_cases hdm : d ∈ st.visited
    · have hst : bfsInner layer curPath st (d :: rest) = bfsInner layer curPath st rest := by
        simp [bfsInner, hdm]
      rw [hst, ih]
      simp only [List.mem_cons]
      constructor
      · rintro (h | h)
        · exact Or.inl h
        · exact Or.inr (Or.inr h)
      · rintro (h | rfl | h)
        · exact Or.inl h
        · exact Or.inl hdm
        · exact Or.inr h
    · have hst : bfsInner layer curPath st (d :: rest) =
          bfsInner layer curPath
            { visited := d :: st.visited
              affected := st.affected ++ [⟨d, layer, curPath ++ [d]⟩]
              nextIds := st.nextIds ++ [d]
              nextPaths := (d, curPath ++ [d]) :: st.nextPaths } rest := by
        simp [bfsInner, hdm]
      rw [hst, ih]
      simp only [List.mem_cons]
      tauto

theorem bfsInner_count (layer : Nat) (curPath : List String) :
    ∀ (deps : List String) (st : BfsState) (z : String),
      (bfsInner layer curPath st deps).nextIds.count z =
        st.nextIds.count z + (if z ∈ deps ∧ z ∉ st.visited then 1 else 0) := by
  intro deps
  induction deps with
  | nil => intro st z; simp [bfsInner]
  | cons d rest ih =>
    intro st z
    by_cases hdm : d ∈ st.visited
    · have hst : bfsInner layer curPath st (d :: rest) = bfsInner layer curPath st rest := by
        simp [bfsInner, hdm]
      rw [hst, ih]
      have hiff : (z ∈ rest ∧ z ∉ st.visited) ↔ (z ∈ d :: rest ∧ z ∉ st.visited) := by
        simp only [List.mem_cons]
        constructor
        · rintro ⟨h, hv⟩; exact ⟨Or.inr h, hv⟩
        · rintro ⟨rfl | h, hv⟩
          · exact absurd hdm hv
          · exact ⟨h, hv⟩
      simp only [hiff]
    · have hst : bfsInner layer curPath st (d :: rest) =
          bfsInner layer curPath
            { visited := d :: st.visited
              affected := st.affected ++ [⟨d, layer, curPath ++ [d]⟩]
              nextIds := st.nextIds ++ [d]
              nextPaths := (d, curPath ++ [d]) :: st.nextPaths } rest := by
        simp [bfsInner, hdm]
      rw [hst, ih]
      by_cases hz : z = d
      · subst hz
        have h1 : ¬ (z ∈ rest ∧ z ∉ z :: st.visited) := by simp
        have h2 : z ∈ z :: rest ∧ z ∉ st.visited := ⟨List.mem_cons_self z rest, hdm⟩
        simp only [h2, if_pos, if_neg h1, List.count_append]
        simp
      · have h1 : List.count z (st.nextIds ++ [d]) = List.count z st.nextIds := by
          simp [List.count_append, hz]
        rw [h1]
        have hiff : (z ∈ rest ∧ z ∉ d :: st.visited) ↔ (z ∈ d :: rest ∧ z ∉ st.visited) := by
          simp only [List.mem_cons]
          constructor
          · rintro ⟨h, hv⟩
            exact ⟨Or.inr h, fun hvv => hv (Or.inr hvv)⟩
          · rintro ⟨rfl | h, hv⟩
            · exact absurd rfl hz
            · refine ⟨h, fun hvv => ?_⟩
              rcases hvv with rfl | hvv
              · exact hz rfl
              · exact hv hvv
        simp only [hiff]

theorem bfsInner_layersFor (layer : Nat) (curPath : List String) :
    ∀ (deps : List String) (st : BfsState) (z : String),
      layersFor (bfsInner layer curPath st deps).affected z =
        layersFor st.affected z ++ (if z ∈ deps ∧ z ∉ st.visited then [layer] else []) := by
  intro deps
  induction deps with
  | nil => intro st z; simp [bfsInner]
  | cons d rest ih =>
    intro st z
    by_cases hdm : d ∈ st.visited
    · have hst : bfsInner layer curPath st (d :: rest) = bfsInner layer curPath st rest := by
        simp [bfsInner, hdm]
      rw [hst, ih]
      have hiff : (z ∈ rest ∧ z ∉ st.visited) ↔ (z ∈ d :: rest ∧ z ∉ st.visited) := by
        simp only [List.mem_cons]
        constructor
        · rintro ⟨h, hv⟩; exact ⟨Or.inr h, hv⟩
        · rintro ⟨rfl | h, hv⟩
          · exact absurd hdm hv
          · exact ⟨h, hv⟩
      simp only [hiff]
    · have hst : bfsInner layer curPath st (d :: rest) =
          bfsInner layer curPath
            { visited := d :: st.visited
              affected := st.affected ++ [⟨d, layer, curPath ++ [d]⟩]
              nextIds := st.nextIds ++ [d]
              nextPaths := (d, curPath ++ [d]) :: st.nextPaths } rest := by
        simp [bfsInner, hdm]
      rw [hst, ih]
      by_cases hz : z = d
      · subst hz
        have h1 : ¬ (z ∈ rest ∧ z ∉ z :: st.visited) := by simp
        have h2 : z ∈ z :: rest ∧ z ∉ st.visited := ⟨List.mem_cons_self z rest, hdm⟩
        simp only [h2, if_pos, if_neg h1, layersFor, List.filter_append, List.map_append]
        simp
      · have h1 : layersFor (st.affected ++ [⟨d, layer, curPath ++ [d]⟩]) z =
            layersFor st.affected z := by
          have : ¬ (d = z) := fun h => hz h.symm
          simp [layersFor, List.filter_append, this]
        rw [h1]
        have hiff : (z ∈ rest ∧ z ∉ d :: st.visited) ↔ (z ∈ d :: rest ∧ z ∉ st.visited) := by
          simp only [List.mem_cons]
          constructor
          · rintro ⟨h, hv⟩
            exact ⟨Or.inr h, fun hvv => hv (Or.inr hvv)⟩
          · rintro ⟨rfl | h, hv⟩
            · exact absurd rfl hz
            · refine ⟨h, fun hvv => ?_⟩
              rcases hvv with rfl | hvv
              · exact hz rfl
              · exact hv hvv
        simp only [hiff]

theorem bfsPass_visited (repos : List Repo) (src : String) (layer : Nat)
    (pp : List (String × List String)) :
    ∀ (startIds : List String) (st : BfsState) (z : String),
      z ∈ (bfsPass repos src layer pp startIds st).visited ↔
        z ∈ st.visited ∨ ∃ y ∈ startIds, z ∈ dependentsOf repos y := by
  intro startIds
  induction startIds with
  | nil => intro st z; simp [bfsPass]
  | cons y rest ih =>
    intro st z
    cases hl : repoLookup repos y with
    | none =>
      have hD : dependentsOf repos y = [] := by simp [dependentsOf, hl]
      have hst : bfsPass repos src layer pp (y :: rest) st =
          bfsPass repos src layer pp rest st := by
        simp [bfsPass, hl]
      have hcons : (∃ y' ∈ y :: rest, z ∈ dependentsOf repos y') ↔
          (∃ y' ∈ rest, z ∈ dependentsOf repos y') := by
        constructor
        · rintro ⟨y', hy', hz'⟩
          rcases List.mem_cons.mp hy' with rfl | hy'
          · rw [hD] at hz'; exact absurd hz' (List.not_mem_nil z)
          · exact ⟨y', hy', hz'⟩
        · rintro ⟨y', hy', hz'⟩
          exact ⟨y', List.mem_cons_of_mem _ hy', hz'⟩
      rw [hst, ih, hcons]
    | some r =>
      have hD : dependentsOf repos y = r.dependents := by simp [dependentsOf, hl]
      have hst : bfsPass repos src layer pp (y :: rest) st =
          bfsPass repos src layer pp rest
            (bfsInner layer ((alGet pp y).getD [src]) st r.dependents) := by
        simp [bfsPass, hl]
      have hcons : (∃ y' ∈ y :: rest, z ∈ dependentsOf repos y') ↔
          z ∈ r.dependents ∨ (∃ y' ∈ rest, z ∈ dependentsOf repos y') := by
        constructor
        · rintro ⟨y', hy', hz'⟩
          rcases List.mem_cons.mp hy' with rfl | hy'
          · exact Or.inl (hD ▸ hz')
          · exact Or.inr ⟨y', hy', hz'⟩
        · rintro (h | ⟨y', hy', hz'⟩)
          · exact ⟨y, List.mem_cons_self y rest, hD.symm ▸ h⟩
          · exact ⟨y', List.mem_cons_of_mem _ hy', hz'⟩
      rw [hst, ih, hcons, bfsInner_visited]
      tauto

theorem bfsPass_count (repos : List Repo) (src : String) (layer : Nat)
    (pp : List (String × List String)) :
    ∀ (startIds : List String) (st : BfsState) (z : String),
      (bfsPass repos src layer pp startIds st).nextIds.count z =
        st.nextIds.count z +
          (if (∃ y ∈ startIds, z ∈ dependentsOf repos y) ∧ z ∉ st.visited then 1 else 0) := by
  intro startIds
  induction startIds with
  | nil => intro st z; simp [bfsPass]
  | cons y rest ih =>
    intro st z
    cases hl : repoLookup repos y with
    | none =>
      have hD : dependentsOf repos y = [] := by simp [dependentsOf, hl]
      have hst : bfsPass repos src layer pp (y :: rest) st =
          bfsPass repos src layer pp rest st := by
        simp [bfsPass, hl]
      have hcons : (∃ y' ∈ y :: rest, z ∈ dependentsOf repos y') ↔
          (∃ y' ∈ rest, z ∈ dependentsOf repos y') := by
        constructor
        · rintro ⟨y', hy', hz'⟩
          rcases List.mem_cons.mp hy' with rfl | hy'
          · rw [hD] at hz'; exact absurd hz' (List.not_mem_nil z)
          · exact ⟨y', hy', hz'⟩
        · rintro ⟨y', hy', hz'⟩
          exact ⟨y', List.mem_cons_of_mem _ hy', hz'⟩
      rw [hst, ih]
      simp only [hcons]
    | some r =>
      have hD : dependentsOf repos y = r.dependents := by simp [dependentsOf, hl]
      have hst : bfsPass repos src layer pp (y :: rest) st =
          bfsPass repos src layer pp rest
            (bfsInner layer ((alGet pp y).getD [src]) st r.dependents) := by
        simp [bfsPass, hl]
      have hcons : (∃ y' ∈ y :: rest, z ∈ dependentsOf repos y') ↔
          z ∈ r.dependents ∨ (∃ y' ∈ rest, z ∈ dependentsOf repos y') := by
        constructor
        · rintro ⟨y', hy', hz'⟩
          rcases List.mem_cons.mp hy' with rfl | hy'
          · exact Or.inl (hD ▸ hz')
          · exact Or.inr ⟨y', hy', hz'⟩
        · rintro (h | ⟨y', hy', hz'⟩)
          · exact ⟨y, List.mem_cons_self y rest, hD.symm ▸ h⟩
          · exact ⟨y', List.mem_cons_of_mem _ hy', hz'⟩
      rw [hst, ih, bfsInner_count]
      simp only [hcons, bfsInner_visited]
      by_cases hzv : z ∈ st.visited <;> by_cases hzr : z ∈ r.dependents <;>
        by_cases hex : ∃ y' ∈ rest, z ∈ dependentsOf repos y' <;>
        simp [hzv, hzr, hex]

theorem bfsPass_layersFor (repos : List Repo) (src : String) (layer : Nat)
    (pp : List (String × List String)) :
    ∀ (startIds : List String) (st : BfsState) (z : String),
      layersFor (bfsPass repos src layer pp startIds st).affected z =
        layersFor st.affected z ++
          (if (∃ y ∈ startIds, z ∈ dependentsOf repos y) ∧ z ∉ st.visited
           then [layer] else []) := by
  intro startIds
  induction startIds with
  | nil => intro st z; simp [bfsPass]
  | cons y rest ih =>
    intro st z
    cases hl : repoLookup repos y with
    | none =>
      have hD : dependentsOf repos y = [] := by simp [dependentsOf, hl]
      have hst : bfsPass repos src layer pp (y :: rest) st =
          bfsPass repos src layer pp rest st := by
        simp [bfsPass, hl]
      have hcons : (∃ y' ∈ y :: rest, z ∈ dependentsOf repos y') ↔
          (∃ y' ∈ rest, z ∈ dependentsOf repos y') := by
        constructor
        · rintro ⟨y', hy', hz'⟩
          rcases List.mem_cons.mp hy' with rfl | hy'
          · rw [hD] at hz'; exact absurd hz' (List.not_mem_nil z)
          · exact ⟨y', hy', hz'⟩
        · rintro ⟨y', hy', hz'⟩
          exact ⟨y', List.mem_cons_of_mem _ hy', hz'⟩
      rw [hst, ih]
      simp only [hcons]
    | some r =>
      have hD : dependentsOf repos y = r.dependents := by simp [dependentsOf, hl]
      have hst : bfsPass repos src layer pp (y :: rest) st =
          bfsPass repos src layer pp rest
            (bfsInner layer ((alGet pp y).getD [src]) st r.dependents) := by
        simp [bfsPass, hl]
      have hcons : (∃ y' ∈ y :: rest, z ∈ dependentsOf repos y') ↔
          z ∈ r.dependents ∨ (∃ y' ∈ rest, z ∈ dependentsOf repos y') := by
        constructor
        · rintro ⟨y', hy', hz'⟩
          rcases List.mem_cons.mp hy' with rfl | hy'
          · exact Or.inl (hD ▸ hz')
          · exact Or.inr ⟨y', hy', hz'⟩
        · rintro (h | ⟨y', hy', hz'⟩)
          · exact ⟨y, List.mem_cons_self y rest, hD.symm ▸ h⟩
          · exact ⟨y', List.mem_cons_of_mem _ hy', hz'⟩
      rw [hst, ih, bfsInner_layersFor]
      simp only [hcons, bfsInner_visited]
      by_cases hzv : z ∈ st.visited <;> by_cases hzr : z ∈ r.dependents <;>
        by_cases hex : ∃ y' ∈ rest, z ∈ dependentsOf repos y' <;>
        simp [hzv, hzr, hex]

theorem length_filter_lt_of_witness {α : Type} (p q : α → Bool)
    (himp : ∀ a, q a = true → p a = true) :
    ∀ (l : List α) (a₀ : α), a₀ ∈ l → p a₀ = true → q a₀ = false →
      (l.filter q).length < (l.filter p).length := by
  intro l
  induction l with
  | nil => intro a₀ h; exact absurd h (List.not_mem_nil a₀)
  | cons b rest ih =>
    intro a₀ ha₀ hp₀ hq₀
    have hmono : (rest.filter q).length ≤ (rest.filter p).length := by
      rw [← List.countP_eq_length_filter, ← List.countP_eq_length_filter]
      exact List.countP_mono_left (fun a _ hq => himp a hq)
    rcases List.mem_cons.mp ha₀ with rfl | ha₀
    · rw [List.filter_cons, List.filter_cons, hp₀, hq₀]
      simpa using Nat.lt_succ_of_le hmono
    · have hlt := ih a₀ ha₀ hp₀ hq₀
      rw [List.filter_cons, List.filter_cons]
      cases hq : q b
      · cases hp : p b <;> simp <;> omega
      · rw [himp b hq]
        simpa using Nat.succ_lt_succ hlt

theorem bfsGo_spec (repos : List Repo) (src : String) :
    ∀ (fuel k : Nat) (startIds : List String)
      (pp : List (String × List String)) (st : BfsState),
      (∀ z, z ∈ st.visited ↔ ∃ m ≤ k, reachN repos src m z) →
      (∀ z, z ∈ startIds ↔ distMin repos src k z) →
      (∀ z d, z ≠ src → distMin repos src d z → 1 ≤ d → d ≤ k →
        layersFor st.affected z = [d]) →
      (∀ z d, z ≠ src → distMin repos src d z → k < d →
        layersFor st.affected z = []) →
      (((repos.flatMap (fun r => r.dependents)).dedup.filter
          (fun z => !(st.visited.contains z))).length + 1 ≤ fuel) →
      ∀ z d, z ≠ src → distMin repos src d z → 1 ≤ d →
        layersFor (bfsGo repos src fuel startIds (k + 1) pp st).affected z = [d] := by
  intro fuel
  induction fuel with
  | zero => intro k startIds pp st _ _ _ _ hfuel; omega
  | succ fuel ih =>
    intro k startIds pp st hvis hfront haff1 haff2 hfuel z d hzsrc hzd hd1
    set st0 : BfsState := { st with nextIds := [], nextPaths := [] } with hst0
    set st' : BfsState := bfsPass repos src (k + 1) pp startIds st0 with hst'
    have hkey : ∀ w, ((∃ y ∈ startIds, w ∈ dependentsOf repos y) ∧ w ∉ st.visited) ↔
        distMin repos src (k + 1) w := by
      intro w
      constructor
      · rintro ⟨⟨y, hy, hwy⟩, hwv⟩
        have hyd := (hfront y).mp hy
        refine ⟨⟨y, hyd.1, hwy⟩, fun m hm hr => ?_⟩
        exact hwv ((hvis w).mpr ⟨m, by omega, hr⟩)
      · rintro ⟨hr, hmin⟩
        obtain ⟨y, hy, hwy⟩ := distMin_pred ⟨hr, hmin⟩
        refine ⟨⟨y, (hfront y).mpr hy, hwy⟩, fun hwv => ?_⟩
        obtain ⟨m, hm, hrm⟩ := (hvis w).mp hwv
        exact hmin m (by omega) hrm
    have hviseq : st0.visited = st.visited := rfl
    have haffeq : st0.affected = st.affected := rfl
    have hvis' : ∀ w, w ∈ st'.visited ↔ ∃ m ≤ k + 1, reachN repos src m w := by
      intro w
      rw [hst', bfsPass_visited, hviseq]
      constructor
      · rintro (h | ⟨y, hy, hwy⟩)
        · obtain ⟨m, hm, hr⟩ := (hvis w).mp h
          exact ⟨m, by omega, hr⟩
        · exact ⟨k + 1, le_refl _, ⟨y, ((hfront y).mp hy).1, hwy⟩⟩
      · rintro ⟨m, hm, hr⟩
        obtain ⟨d', hd'm, hdist⟩ := reach_exists_min hr
        by_cases hdk : d' ≤ k
        · exact Or.inl ((hvis w).mpr ⟨d', hdk, hdist.1⟩)
        · have : d' = k + 1 := by omega
          subst this
          obtain ⟨y, hy, hwy⟩ := distMin_pred hdist
          exact Or.inr ⟨y, (hfront y).mpr hy, hwy⟩
    have hnext : ∀ w, w ∈ st'.nextIds ↔ distMin repos src (k + 1) w := by
      intro w
      have hcnt : st'.nextIds.count w =
          (if (∃ y ∈ startIds, w ∈ dependentsOf repos y) ∧ w ∉ st0.visited
           then 1 else 0) := by
        rw [hst', bfsPass_count]
        simp [hst0]
      rw [hviseq] at hcnt
      constructor
      · intro hw
        have := List.count_pos_iff.mpr hw
        rw [hcnt] at this
        by_cases hc : (∃ y ∈ startIds, w ∈ dependentsOf repos y) ∧ w ∉ st.visited
        · exact (hkey w).mp hc
        · rw [if_neg hc] at this; omega
      · intro hw
        apply List.count_pos_iff.mp
        rw [hcnt, if_pos ((hkey w).mpr hw)]
        omega
    have hlay' : ∀ w, layersFor st'.affected w =
        layersFor st.affected w ++
          (if (∃ y ∈ startIds, w ∈ dependentsOf repos y) ∧ w ∉ st.visited
           then [k + 1] else []) := by
      intro w
      rw [hst', bfsPass_layersFor, haffeq, hviseq]
    cases hbranch : st'.nextIds.isEmpty with
    | true =>
      have hout : bfsGo repos src (fuel + 1) startIds (k + 1) pp st = st' := by
        rw [show fuel + 1 = fuel + 1 from rfl]
        simp only [bfsGo, ← hst0, ← hst', hbranch]
        rfl
      have hnone : ∀ w, ¬ distMin repos src (k + 1) w := by
        intro w hw
        have := (hnext w).mpr hw
        rw [List.isEmpty_iff.mp hbranch] at this
        exact absurd this (List.not_mem_nil w)
      have hdk : d ≤ k := by
        by_contra hgt
        have : d = (k + 1) + (d - (k + 1)) := by omega
        exact distMin_no_gap hnone (d - (k + 1)) z (this ▸ hzd)
      rw [hout, hlay' z, if_neg, haff1 z d hzsrc hzd hd1 hdk, List.append_nil]
      intro hc
      have := distMin_unique hzd ((hkey z).mp hc)
      omega
    | false =>
      have hout : bfsGo repos src (fuel + 1) startIds (k + 1) pp st =
          bfsGo repos src fuel st'.nextIds (k + 1 + 1) st'.nextPaths st' := by
        simp only [bfsGo, ← hst0, ← hst', hbranch]
        rfl
      rw [hout]
      refine ih (k + 1) st'.nextIds st'.nextPaths st' hvis' hnext ?_ ?_ ?_ z d hzsrc hzd hd1
      · intro w d' hwsrc hwd hd'1 hd'k
        rw [hlay' w]
        by_cases hdk : d' ≤ k
        · rw [if_neg, haff1 w d' hwsrc hwd hd'1 hdk, List.append_nil]
          intro hc
          have := distMin_unique hwd ((hkey w).mp hc)
          omega
        · have : d' = k + 1 := by omega
          subst this
          rw [if_pos ((hkey w).mpr hwd), haff2 w (k + 1) hwsrc hwd (by omega)]
          simp
      · intro w d' hwsrc hwd hd'k
        rw [hlay' w, if_neg, haff2 w d' hwsrc hwd (by omega), List.append_nil]
        intro hc
        have := distMin_unique hwd ((hkey w).mp hc)
        omega
      · obtain ⟨z₀, hz₀⟩ := List.exists_mem_of_ne_nil st'.nextIds
          (fun h => by rw [h] at hbranch; simp at hbranch)
        have hz₀d := (hnext z₀).mp hz₀
        have hz₀cond := (hkey z₀).mpr hz₀d
        obtain ⟨⟨y, hy, hz₀y⟩, hz₀v⟩ := hz₀cond
        have hz₀pool : z₀ ∈ (repos.flatMap (fun r => r.dependents)).dedup := by
          rw [List.mem_dedup, List.mem_flatMap]
          unfold dependentsOf at hz₀y
          cases hl : repoLookup repos y with
          | none => rw [hl] at hz₀y; exact absurd hz₀y (List.not_mem_nil z₀)
          | some r =>
            rw [hl] at hz₀y
            exact ⟨r, (repoLookup_mem hl).1, hz₀y⟩
        have hz₀v' : z₀ ∈ st'.visited := by
          rw [hst', bfsPass_visited]
          exact Or.inr ⟨y, hy, hz₀y⟩
        have hmono : ∀ w, w ∈ st.visited → w ∈ st'.visited := by
          intro w hw
          rw [hst', bfsPass_visited]
          exact Or.inl hw
        have hlt := length_filter_lt_of_witness
          (fun w => !(st.visited.contains w)) (fun w => !(st'.visited.contains w))
          (by
            intro a ha
            simp only [Bool.not_eq_true', ← Bool.not_eq_true] at ha ⊢
            intro hmem
            exact ha (by simpa using hmono a (by simpa using hmem)))
          ((repos.flatMap (fun r => r.dependents)).dedup) z₀ hz₀pool
          (by simpa using hz₀v) (by simpa using hz₀v')
        omega

/-- The diamond input of spec §8: `a ← b`, `a ← c`, `b ← d`, `c ← d`. -/
def diamondA : Repo :=
  { id := "a", npmPackage := "a", version := "1.0.0"
    dependencies := [], dependents := ["b", "c"] }

def diamondB : Repo :=
  { id := "b", npmPackage := "b", version := "1.0.0"
    dependencies := [⟨"a", "a", "^1.0.0"⟩], dependents := ["d"] }

def diamondC : Repo :=
  { id := "c", npmPackage := "c", version := "1.0.0"
    dependencies := [⟨"a", "a", "^1.0.0"⟩], dependents := ["d"] }

def diamondD : Repo :=
  { id := "d", npmPackage := "d", version := "1.0.0"
    dependencies := [⟨"b", "b", "^1.0.0"⟩, ⟨"c", "c", "^1.0.0"⟩]
    dependents := [] }

def diamondRepos : List Repo := [diamondA, diamondB, diamondC, diamondD]

/-- A two-node dependency cycle: `a` depends on `b` and `b` depends on `a`,
so `dependents a = [b]` and `dependents b = [a]`. -/
def cycleA : Repo :=
  { id := "a", npmPackage := "a", version := "1.0.0"
    dependencies := [⟨"b", "b", "^1.0.0"⟩], dependents := ["b"] }

def cycleB : Repo :=
  { id := "b", npmPackage := "b", version := "1.0.0"
    dependencies := [⟨"a", "a", "^1.0.0"⟩], dependents := ["a"] }

def cycleRepos : List Repo := [cycleA, cycleB]

/-- C4, counterexample: when the source lies on a dependents-cycle it is
reachable from itself (here `a → b → a` in two hops) yet `getAffected`
never reports the source, because the visited set is seeded with it.  So
"each node reachable from the source appears exactly once" fails for the
source node on the two-node cycle input. -/
theorem C4_counterexample :
    ¬ (∀ (repos : List Repo) (src x : String),
        (∃ n, 1 ≤ n ∧ reachN repos src n x) →
        ((getAffected repos src).affected.filter (fun e => e.id = x)).length = 1) := by
  intro h
  have h2 : reachN cycleRepos "a" 2 "a" :=
    ⟨"b", ⟨"a", rfl, by decide⟩, by decide⟩
  have := h cycleRepos "a" "a" ⟨2, by omega, h2⟩
  have h0 : ((getAffected cycleRepos "a").affected.filter
      (fun e => e.id = "a")).length = 0 := by decide
  omega

/-- C4 (amended): every node other than the source that is reachable from
the source along the dependents relation appears exactly once in
`getAffected`'s affected list, at its breadth-first minimum distance `d`
(the filtered entry list for it is exactly `[d]`); and on the diamond input
`a ← b`, `a ← c`, `b ← d`, `c ← d`, `getAffected "a"` reports `d` exactly
once, at layer 2. -/
theorem C4_affected_min_distance :
    (∀ (repos : List Repo) (src x : String) (d : Nat),
        x ≠ src → distMin repos src d x →
        layersFor (getAffected repos src).affected x = [d]) ∧
    layersFor (getAffected diamondRepos "a").affected "d" = [2] := by
  constructor
  · intro repos src x d hx hd
    have hd1 : 1 ≤ d := by
      rcases Nat.eq_zero_or_pos d with rfl | h
      · exact absurd hd.1 hx
      · exact h
    have hmain := bfsGo_spec repos src
      ((repos.flatMap (fun r => r.dependents)).length + 1) 0 [src]
      [(src, [src])]
      { visited := [src], affected := [], nextIds := [], nextPaths := [] }
      (by
        intro z
        simp only [List.mem_singleton]
        constructor
        · rintro rfl; exact ⟨0, le_refl 0, rfl⟩
        · rintro ⟨m, hm, hr⟩
          have : m = 0 := by omega
          subst this
          exact hr)
      (by
        intro z
        simp only [List.mem_singleton]
        constructor
        · rintro rfl
          exact ⟨rfl, fun m hm => by omega⟩
        · rintro ⟨hr, _⟩
          cases hr
          rfl)
      (by intro z d' _ _ _ h; omega)
      (by intro z d' _ _ _; simp [layersFor])
      (by
        set st1 : BfsState :=
          { visited := [src], affected := [], nextIds := [], nextPaths := [] }
          with hst1
        have h1 := List.length_filter_le
          (fun z => !(st1.visited.contains z))
          ((repos.flatMap (fun r => r.dependents)).dedup)
        have h2 : (repos.flatMap (fun r => r.dependents)).dedup.length ≤
            (repos.flatMap (fun r => r.dependents)).length :=
          List.Sublist.length_le (List.dedup_sublist _)
        omega)
      x d hx hd hd1
    simpa [getAffected] using hmain
  · decide

/-- C4, witness: the general part of `C4_affected_min_distance`
instantiated on the spec §8 scenario at node `lib-b`, which sits at
minimum distance 1 from `lib-a`. -/
theorem C4_affected_min_distance_witness :
    layersFor (getAffected scenarioRepos "lib-a").affected "lib-b" = [1] := by
  refine C4_affected_min_distance.1 scenarioRepos "lib-a" "lib-b" 1 (by decide) ?_
  refine ⟨⟨"lib-a", rfl, by decide⟩, ?_⟩
  intro m hm hr
  have : m = 0 := by omega
  subst this
  have heq : ("lib-b" : String) = "lib-a" := hr
  exact absurd heq (by decide)

/-! ### Kahn layering (`DependencyResolver.calculateLayers`) -/

/-- `repo.dependencies.map((d) => d.repoId).filter(Boolean)`: the resolved
internal dependency ids of one node (empty-string ids are external). -/
def resolvedDepIds (r : Repo) : List String :=
  (r.dependencies.map (fun d => d.repoId)).filter (fun s => s ≠ "")

def idsOf (repos : List Repo) : List String := repos.map (fun r => r.id)

/-- The `depCount` map after the initialisation loop of `calculateLayers`:
`depCount.set(repo.id, depIds.length)` for each repo in order (later
entries overwrite). -/
def initCnt (repos : List Repo) : String → Option Int :=
  repos.foldl
    (fun m r => fun k => if k = r.id then some ((resolvedDepIds r).length : Int) else m k)
    (fun _ => none)

/-- The `adjList` map of `calculateLayers`: for each repo in order, for each
resolved dependency id, push the repo's id onto the target's list. -/
def adjOf (repos : List Repo) (q : String) : List String :=
  repos.flatMap (fun r => ((resolvedDepIds r).filter (fun t => t = q)).map (fun _ => r.id))

/-- JavaScript `x || 1` on the value of `depCount.get`: a missing entry or
a zero count is replaced by 1. -/
def jsOr1 (x : Option Int) : Int :=
  match x with
  | none => 1
  | some v => if v = 0 then 1 else v

/-- One decrement `remaining = (depCount.get(dependent) || 1) - 1;`
`depCount.set(dependent, remaining); if (remaining === 0) nextQueue.push`. -/
def kahnStep (cnt : String → Option Int) (nq : List String) (dep : String) :
    (String → Option Int) × List String :=
  let remaining := jsOr1 (cnt dep) - 1
  (fun k => if k = dep then some remaining else cnt k,
   if remaining = 0 then nq ++ [dep] else nq)

/-- The two nested loops of one `while` iteration of `calculateLayers`:
for each node of the queue, for each of its dependents, decrement. -/
def processLayer (adj : String → List String) (queue : List String)
    (cnt : String → Option Int) : (String → Option Int) × List String :=
  (queue.flatMap adj).foldl (fun p dep => kahnStep p.1 p.2 dep) (cnt, [])

/-- The `while (queue.length > 0)` loop of `calculateLayers`, fuel-indexed.
Each iteration emits the current queue as a layer; nodes enter a queue only
when their count first reaches zero, which on the acyclic well-formed
inputs of the layering theorem happens at most once per node, so the number
of iterations is at most the number of nodes and `repos.length + 1` fuel is
never exhausted. -/
def kahnLoop (adj : String → List String) :
    Nat → List String → (String → Option Int) → List (List String)
  | 0, _, _ => []
  | fuel + 1, queue, cnt =>
      if queue.isEmpty then []
      else
        let p := processLayer adj queue cnt
        queue :: kahnLoop adj fuel p.2 p.1

/-- `DependencyResolver.calculateLayers`: Kahn peeling into layers; layer
`i` of the result list is `layers[i]` of the returned record (the record's
keys are the consecutive integers `0..`). -/
def calculateLayers (repos : List Repo) : List (List String) :=
  let cnt := initCnt repos
  let queue0 := (repos.filter (fun r => (cnt r.id).getD 0 = 0)).map (fun r => r.id)
  kahnLoop (adjOf repos) (repos.length + 1) queue0 cnt

/-- Count of dependency entries of `r` whose target is not yet processed
(the value `calculateLayers` keeps in `depCount`). -/
def unresolved (P : List String) (r : Repo) : Nat :=
  ((resolvedDepIds r).filter (fun t => !(P.contains t))).length

/-- The node set is acyclic: some rank function strictly decreases along
every resolved dependency edge. -/
def Acyclic (repos : List Repo) : Prop :=
  ∃ rank : String → Nat, ∀ r ∈ repos, ∀ t ∈ resolvedDepIds r, rank t < rank r.id

theorem count_map_const (c x : String) :
    ∀ (l : List String), ((l.map (fun _ => c)).count x) = if x = c then l.length else 0 := by
  intro l
  induction l with
  | nil => simp
  | cons t rest ih =>
    simp only [List.map_cons, List.count_cons, ih]
    by_cases h : x = c
    · simp [h]
    · have h' : ¬ c = x := fun hc => h hc.symm
      simp [h, h']

theorem length_filter_eq_count (q : String) :
    ∀ (l : List String), (l.filter (fun t => t = q)).length = l.count q := by
  intro l
  induction l with
  | nil => simp
  | cons t rest ih =>
    by_cases h : t = q
    · simp [List.filter_cons, List.count_cons, h, ih]
    · have h' : ¬ q = t := fun hc => h hc.symm
      simp [List.filter_cons, List.count_cons, h, ih, h']

theorem adjOf_cons (r₀ : Repo) (rest : List Repo) (q : String) :
    adjOf (r₀ :: rest) q =
      (((resolvedDepIds r₀).filter (fun t => t = q)).map (fun _ => r₀.id)) ++ adjOf rest q := by
  simp [adjOf, List.flatMap_cons]

theorem adjOf_count_notMem {x : String} (q : String) :
    ∀ (repos : List Repo), x ∉ idsOf repos → (adjOf repos q).count x = 0 := by
  intro repos
  induction repos with
  | nil => intro _; simp [adjOf]
  | cons r rest ih =>
    intro hx
    have hxr : x ≠ r.id := by
      intro h; exact hx (by simp [idsOf, h])
    have hxrest : x ∉ idsOf rest := by
      intro h
      apply hx
      simp only [idsOf, List.map_cons, List.mem_cons]
      exact Or.inr (by simpa [idsOf] using h)
    rw [adjOf_cons, List.count_append, count_map_const, if_neg hxr, ih hxrest]

theorem adjOf_count_mem (q : String) :
    ∀ (repos : List Repo), (idsOf repos).Nodup → ∀ r ∈ repos,
      (adjOf repos q).count r.id = (resolvedDepIds r).count q := by
  intro repos
  induction repos with
  | nil => intro _ r hr; exact absurd hr (List.not_mem_nil r)
  | cons r₀ rest ih =>
    intro hnodup r hr
    have hsplit : (∀ x ∈ rest, ¬ x.id = r₀.id) ∧ (idsOf rest).Nodup := by
      simpa [idsOf] using hnodup
    have hr₀ : r₀.id ∉ idsOf rest := by
      intro h
      obtain ⟨x, hx, hxid⟩ : ∃ x ∈ rest, x.id = r₀.id := by simpa [idsOf] using h
      exact hsplit.1 x hx hxid
    rcases List.mem_cons.mp hr with rfl | hr
    · rw [adjOf_cons, List.count_append, count_map_const, if_pos rfl,
        length_filter_eq_count, adjOf_count_notMem q rest hr₀]
      omega
    · have hne : r.id ≠ r₀.id := by
        intro h
        exact hsplit.1 r hr h
      rw [adjOf_cons, List.count_append, count_map_const, if_neg hne,
        ih hsplit.2 r hr]
      omega

theorem count_flatMap (x : String) (f : String → List String) :
    ∀ (Q : List String), ((Q.flatMap f).count x) = (Q.map (fun q => (f q).count x)).sum := by
  intro Q
  induction Q with
  | nil => simp
  | cons q rest ih => simp [List.flatMap_cons, List.count_append, ih]

theorem filter_or_disjoint (q : String) :
    ∀ (l Q' : List String), q ∉ Q' →
      (l.filter (fun t => decide (t = q) || decide (t ∈ Q'))).length =
        l.count q + (l.filter (fun t => decide (t ∈ Q'))).length := by
  intro l Q' hq
  induction l with
  | nil => simp
  | cons t rest ih =>
    simp only [List.filter_cons, List.count_cons]
    by_cases htq : t = q
    · subst htq
      simp [hq]
      omega
    · have h' : ¬ q = t := fun hc => htq hc.symm
      by_cases htQ : t ∈ Q'
      · simp [htq, htQ, h']
        omega
      · simp [htq, htQ, h']
        omega

theorem sum_count_eq_filter_length :
    ∀ (Q l : List String), Q.Nodup →
      (Q.map (fun q => l.count q)).sum = (l.filter (fun t => decide (t ∈ Q))).length := by
  intro Q
  induction Q with
  | nil => intro l _; simp
  | cons q rest ih =>
    intro l hnodup
    obtain ⟨hq, hrest⟩ := List.nodup_cons.mp hnodup
    have hcongr : l.filter (fun t => decide (t ∈ q :: rest)) =
        l.filter (fun t => decide (t = q) || decide (t ∈ rest)) := by
      apply List.filter_congr
      intro a _
      simp [List.mem_cons]
    rw [List.map_cons, List.sum_cons, ih l hrest, hcongr,
      filter_or_disjoint q l rest hq]

theorem kahnFold_other :
    ∀ (L : List String) (cnt : String → Option Int) (nq : List String) (x : String),
      L.count x = 0 →
      (L.foldl (fun p dep => kahnStep p.1 p.2 dep) (cnt, nq)).1 x = cnt x ∧
      (L.foldl (fun p dep => kahnStep p.1 p.2 dep) (cnt, nq)).2.count x = nq.count x := by
  intro L
  induction L with
  | nil => intro cnt nq x _; exact ⟨rfl, rfl⟩
  | cons y L' ih =>
    intro cnt nq x hc
    have hxy : x ≠ y := by
      intro h
      subst h
      simp [List.count_cons] at hc
    have hc' : L'.count x = 0 := by
      simp [List.count_cons, hxy] at hc
      omega
    have hstep : (y :: L').foldl (fun p dep => kahnStep p.1 p.2 dep) (cnt, nq) =
        L'.foldl (fun p dep => kahnStep p.1 p.2 dep) (kahnStep cnt nq y) := by
      simp [List.foldl_cons]
    rw [hstep]
    have h1 : (kahnStep cnt nq y).1 x = cnt x := by
      simp [kahnStep, hxy]
    have h2 : (kahnStep cnt nq y).2.count x = nq.count x := by
      simp only [kahnStep]
      by_cases hrem : jsOr1 (cnt y) - 1 = 0
      · simp [hrem, List.count_append, hxy]
      · simp [hrem]
    obtain ⟨ha, hb⟩ := ih (kahnStep cnt nq y).1 (kahnStep cnt nq y).2 x hc'
    exact ⟨by rw [ha, h1], by rw [hb, h2]⟩

theorem kahnFold_spec :
    ∀ (L : List String) (cnt : String → Option Int) (nq : List String) (x : String) (n : Nat),
      cnt x = some (n : Int) → L.count x ≤ n →
      (L.foldl (fun p dep => kahnStep p.1 p.2 dep) (cnt, nq)).1 x =
        some ((n : Int) - L.count x) ∧
      (L.foldl (fun p dep => kahnStep p.1 p.2 dep) (cnt, nq)).2.count x =
        nq.count x + (if L.count x = n ∧ n ≠ 0 then 1 else 0) := by
  intro L
  induction L with
  | nil =>
    intro cnt nq x n hcx _
    refine ⟨by simpa using hcx, ?_⟩
    have : ¬ (([] : List String).count x = n ∧ n ≠ 0) := by
      simp only [List.count_nil]
      omega
    rw [if_neg this]
    simp
  | cons y L' ih =>
    intro cnt nq x n hcx hle
    have hstep : (y :: L').foldl (fun p dep => kahnStep p.1 p.2 dep) (cnt, nq) =
        L'.foldl (fun p dep => kahnStep p.1 p.2 dep) (kahnStep cnt nq y) := by
      simp [List.foldl_cons]
    rw [hstep]
    by_cases hxy : x = y
    · subst hxy
      have hcount : (x :: L').count x = L'.count x + 1 := by
        simp [List.count_cons]
      have hn1 : 1 ≤ n := by
        rw [hcount] at hle
        omega
      have hnz : ((n : Int) = 0) = False := by
        simp only [eq_iff_iff, iff_false]
        intro h
        have : n = 0 := by exact_mod_cast h
        omega
      have hrem : jsOr1 (cnt x) - 1 = (n : Int) - 1 := by
        rw [hcx]
        simp [jsOr1]
        intro h
        rw [h] at hnz
        simp at hnz
      by_cases hone : n = 1
      · subst hone
        have hrem0 : jsOr1 (cnt x) - 1 = 0 := by rw [hrem]; norm_num
        have hLc : L'.count x = 0 := by
          rw [hcount] at hle
          omega
        have hk1 : (kahnStep cnt nq x).1 x = some 0 := by
          simp [kahnStep, hrem0]
        have hk2 : (kahnStep cnt nq x).2 = nq ++ [x] := by
          simp [kahnStep, hrem0]
        obtain ⟨ha, hb⟩ := kahnFold_other L' (kahnStep cnt nq x).1 (kahnStep cnt nq x).2 x hLc
        constructor
        · rw [ha, hk1, hcount, hLc]
          norm_num
        · rw [hb, hk2, hcount, hLc, List.count_append]
          have hcond : ((0 : Nat) + 1 = 1 ∧ (1 : Nat) ≠ 0) := by omega
          rw [if_pos hcond]
          simp
      · have hn2 : 2 ≤ n := by omega
        have hremne : ¬ (jsOr1 (cnt x) - 1 = 0) := by
          rw [hrem]
          intro h
          have : (n : Int) = 1 := by omega
          have : n = 1 := by exact_mod_cast this
          omega
        have hk1 : (kahnStep cnt nq x).1 x = some ((↑(n - 1) : Int)) := by
          simp only [kahnStep, hrem]
          have : (n : Int) - 1 = ((n - 1 : Nat) : Int) := by
            omega
          simp [this]
        have hk2 : (kahnStep cnt nq x).2 = nq := by
          simp [kahnStep, hremne]
        have hle' : L'.count x ≤ n - 1 := by
          rw [hcount] at hle
          omega
        obtain ⟨ha, hb⟩ := ih (kahnStep cnt nq x).1 (kahnStep cnt nq x).2 x (n - 1) hk1 hle'
        constructor
        · rw [ha, hcount]
          congr 1
          have hcast : ((L'.count x : Int) + 1) = ((L'.count x + 1 : Nat) : Int) := by
            push_cast
            ring
          omega
        · rw [hb, hk2, hcount]
          have hcond : (L'.count x = n - 1 ∧ n - 1 ≠ 0) ↔ (L'.count x + 1 = n ∧ n ≠ 0) := by
            omega
          simp only [hcond]
    · have hcount : (y :: L').count x = L'.count x := by
        simp [List.count_cons, hxy]
      have h1 : (kahnStep cnt nq y).1 x = cnt x := by
        simp [kahnStep, hxy]
      have h2 : (kahnStep cnt nq y).2.count x = nq.count x := by
        simp only [kahnStep]
        by_cases hrem : jsOr1 (cnt y) - 1 = 0
        · simp [hrem, List.count_append, hxy]
        · simp [hrem]
      have hle' : L'.count x ≤ n := by rw [hcount] at hle; exact hle
      obtain ⟨ha, hb⟩ := ih (kahnStep cnt nq y).1 (kahnStep cnt nq y).2 x n (by rw [h1]; exact hcx) hle'
      exact ⟨by rw [ha, hcount], by rw [hb, h2, hcount]⟩
theorem length_filter_split (P Q : List String) (hdisj : ∀ x ∈ Q, x ∉ P) :
    ∀ (l : List String),
      (l.filter (fun t => !decide (t ∈ P))).length =
        (l.filter (fun t => decide (t ∈ Q))).length +
          (l.filter (fun t => !decide (t ∈ P) && !decide (t ∈ Q))).length := by
  intro l
  induction l with
  | nil => simp
  | cons t rest ih =>
    simp only [List.filter_cons]
    by_cases htP : t ∈ P
    · have htQ : t ∉ Q := fun h => hdisj t h htP
      simp [htP, htQ, ih]
    · by_cases htQ : t ∈ Q
      · simp [htP, htQ, ih]
        omega
      · simp [htP, htQ, ih]
        omega

theorem unresolved_append (P Q : List String) (hdisj : ∀ x ∈ Q, x ∉ P) (r : Repo) :
    unresolved P r =
      ((resolvedDepIds r).filter (fun t => decide (t ∈ Q))).length +
        unresolved (P ++ Q) r := by
  have h1 : (resolvedDepIds r).filter (fun t => !(P.contains t)) =
      (resolvedDepIds r).filter (fun t => !decide (t ∈ P)) :=
    List.filter_congr (fun a _ => by simp)
  have h2 : (resolvedDepIds r).filter (fun t => !((P ++ Q).contains t)) =
      (resolvedDepIds r).filter (fun t => !decide (t ∈ P) && !decide (t ∈ Q)) :=
    List.filter_congr (fun a _ => by simp [List.mem_append, not_or])
  unfold unresolved
  rw [h1, h2, length_filter_split P Q hdisj]

theorem initCnt_go_notMem :
    ∀ (repos : List Repo) (m : String → Option Int) (x : String), x ∉ idsOf repos →
      repos.foldl
        (fun m r => fun k => if k = r.id then some ((resolvedDepIds r).length : Int) else m k)
        m x = m x := by
  intro repos
  induction repos with
  | nil => intro m x _; rfl
  | cons r rest ih =>
    intro m x hx
    have hxr : x ≠ r.id := by
      intro h; exact hx (by simp [idsOf, h])
    have hxrest : x ∉ idsOf rest := by
      intro h
      exact hx (by
        simp only [idsOf, List.map_cons, List.mem_cons]
        exact Or.inr (by simpa [idsOf] using h))
    rw [List.foldl_cons, ih _ x hxrest]
    simp [hxr]

theorem initCnt_notMem (repos : List Repo) (x : String) (hx : x ∉ idsOf repos) :
    initCnt repos x = none :=
  initCnt_go_notMem repos _ x hx
theorem initCnt_go_point :
    ∀ (repos : List Repo) (m m' : String → Option Int) (x : String), m x = m' x →
      repos.foldl
        (fun m r => fun k => if k = r.id then some ((resolvedDepIds r).length : Int) else m k)
        m x =
      repos.foldl
        (fun m r => fun k => if k = r.id then some ((resolvedDepIds r).length : Int) else m k)
        m' x := by
  intro repos
  induction repos with
  | nil => intro m m' x h; exact h
  | cons r rest ih =>
    intro m m' x h
    rw [List.foldl_cons, List.foldl_cons]
    apply ih
    by_cases hx : x = r.id
    · simp [hx]
    · simp [hx, h]

theorem initCnt_mem :
    ∀ (repos : List Repo), (idsOf repos).Nodup → ∀ r ∈ repos,
      initCnt repos r.id = some ((resolvedDepIds r).length : Int) := by
  intro repos
  induction repos with
  | nil => intro _ r hr; exact absurd hr (List.not_mem_nil r)
  | cons r₀ rest ih =>
    intro hnodup r hr
    have hsplit : (∀ x ∈ rest, ¬ x.id = r₀.id) ∧ (idsOf rest).Nodup := by
      simpa [idsOf] using hnodup
    rcases List.mem_cons.mp hr with rfl | hr
    · have hr₀ : r.id ∉ idsOf rest := by
        intro h
        obtain ⟨x, hx, hxid⟩ : ∃ x ∈ rest, x.id = r.id := by simpa [idsOf] using h
        exact hsplit.1 x hx hxid
      unfold initCnt
      rw [List.foldl_cons, initCnt_go_notMem rest _ r.id hr₀]
      simp
    · have hne : r.id ≠ r₀.id := fun h => hsplit.1 r hr h
      have hpoint := initCnt_go_point rest
        (fun k => if k = r₀.id then some ((resolvedDepIds r₀).length : Int) else (fun _ => none) k)
        (fun _ => none) r.id (by simp [hne])
      unfold initCnt
      rw [List.foldl_cons]
      rw [hpoint]
      exact ih hsplit.2 r hr

theorem id_inj :
    ∀ (repos : List Repo), (idsOf repos).Nodup →
      ∀ r ∈ repos, ∀ r' ∈ repos, r.id = r'.id → r = r' := by
  intro repos
  induction repos with
  | nil => intro _ r hr; exact absurd hr (List.not_mem_nil r)
  | cons r₀ rest ih =>
    intro hnodup r hr r' hr' hid
    have hsplit : (∀ x ∈ rest, ¬ x.id = r₀.id) ∧ (idsOf rest).Nodup := by
      simpa [idsOf] using hnodup
    rcases List.mem_cons.mp hr with hr1 | hr1
    · rcases List.mem_cons.mp hr' with hr2 | hr2
      · rw [hr1, hr2]
      · exfalso
        exact hsplit.1 r' hr2 (by rw [← hid, hr1])
    · rcases List.mem_cons.mp hr' with hr2 | hr2
      · exfalso
        exact hsplit.1 r hr1 (by rw [hid, hr2])
      · exact ih hsplit.2 r hr1 r' hr2 hid

theorem flatMap_adj_count_mem (repos : List Repo) (hnodup : (idsOf repos).Nodup)
    (Q : List String) (hQnodup : Q.Nodup) (r : Repo) (hr : r ∈ repos) :
    (Q.flatMap (adjOf repos)).count r.id =
      ((resolvedDepIds r).filter (fun t => decide (t ∈ Q))).length := by
  rw [count_flatMap]
  have hmap : Q.map (fun q => (adjOf repos q).count r.id) =
      Q.map (fun q => (resolvedDepIds r).count q) :=
    List.map_congr_left (fun q _ => adjOf_count_mem q repos hnodup r hr)
  rw [hmap, sum_count_eq_filter_length Q (resolvedDepIds r) hQnodup]

theorem flatMap_adj_count_notMem (repos : List Repo) (Q : List String)
    (x : String) (hx : x ∉ idsOf repos) :
    (Q.flatMap (adjOf repos)).count x = 0 := by
  rw [count_flatMap]
  have hmap : Q.map (fun q => (adjOf repos q).count x) = Q.map (fun _ => 0) :=
    List.map_congr_left (fun q _ => adjOf_count_notMem q repos hx)
  rw [hmap]
  simp

theorem processLayer_spec (repos : List Repo) (hnodup : (idsOf repos).Nodup)
    (P Q : List String) (cnt : String → Option Int)
    (hconf : ∀ r ∈ repos, cnt r.id = some ((unresolved P r : Nat) : Int))
    (hQP : ∀ x ∈ Q, x ∉ P) (hQnodup : Q.Nodup) :
    (∀ r ∈ repos, (processLayer (adjOf repos) Q cnt).1 r.id =
        some ((unresolved (P ++ Q) r : Nat) : Int)) ∧
    (∀ x, x ∉ idsOf repos → (processLayer (adjOf repos) Q cnt).1 x = cnt x) ∧
    (∀ x, (processLayer (adjOf repos) Q cnt).2.count x =
        (if ∃ r ∈ repos, r.id = x ∧ unresolved P r ≠ 0 ∧ unresolved (P ++ Q) r = 0
         then 1 else 0)) := by
  have hcount : ∀ r ∈ repos, (Q.flatMap (adjOf repos)).count r.id =
      ((resolvedDepIds r).filter (fun t => decide (t ∈ Q))).length :=
    fun r hr => flatMap_adj_count_mem repos hnodup Q hQnodup r hr
  have hsplitU : ∀ r : Repo, unresolved P r =
      ((resolvedDepIds r).filter (fun t => decide (t ∈ Q))).length + unresolved (P ++ Q) r :=
    fun r => unresolved_append P Q hQP r
  refine ⟨?_, ?_, ?_⟩
  · intro r hr
    have hle : (Q.flatMap (adjOf repos)).count r.id ≤ unresolved P r := by
      rw [hcount r hr, hsplitU r]
      omega
    have := (kahnFold_spec (Q.flatMap (adjOf repos)) cnt [] r.id (unresolved P r)
      (hconf r hr) hle).1
    unfold processLayer
    rw [this, hcount r hr]
    congr 1
    have := hsplitU r
    omega
  · intro x hx
    exact (kahnFold_other (Q.flatMap (adjOf repos)) cnt [] x
      (flatMap_adj_count_notMem repos Q x hx)).1
  · intro x
    by_cases hx : x ∈ idsOf repos
    · obtain ⟨r, hr, hrid⟩ : ∃ r ∈ repos, r.id = x := by simpa [idsOf] using hx
      subst hrid
      have hle : (Q.flatMap (adjOf repos)).count r.id ≤ unresolved P r := by
        rw [hcount r hr, hsplitU r]
        omega
      have hfold := (kahnFold_spec (Q.flatMap (adjOf repos)) cnt [] r.id (unresolved P r)
        (hconf r hr) hle).2
      unfold processLayer
      rw [hfold, List.count_nil, hcount r hr]
      have hiff : (((resolvedDepIds r).filter (fun t => decide (t ∈ Q))).length =
            unresolved P r ∧ unresolved P r ≠ 0) ↔
          (∃ r' ∈ repos, r'.id = r.id ∧ unresolved P r' ≠ 0 ∧ unresolved (P ++ Q) r' = 0) := by
        constructor
        · rintro ⟨h1, h2⟩
          refine ⟨r, hr, rfl, h2, ?_⟩
          have := hsplitU r
          omega
        · rintro ⟨r', hr', hid, h1, h2⟩
          have : r' = r := id_inj repos hnodup r' hr' r hr hid
          subst this
          have := hsplitU r'
          constructor
          · omega
          · exact h1
      simp only [hiff]
      omega
    · have := (kahnFold_other (Q.flatMap (adjOf repos)) cnt [] x
        (flatMap_adj_count_notMem repos Q x hx)).2
      unfold processLayer
      rw [this, List.count_nil]
      have hno : ¬ (∃ r ∈ repos, r.id = x ∧ unresolved P r ≠ 0 ∧ unresolved (P ++ Q) r = 0) := by
        rintro ⟨r, hr, hid, _⟩
        exact hx (by simp [idsOf]; exact ⟨r, hr, hid⟩)
      rw [if_neg hno]

theorem unresolved_zero_iff (P : List String) (r : Repo) :
    unresolved P r = 0 ↔ ∀ t ∈ resolvedDepIds r, t ∈ P := by
  unfold unresolved
  rw [List.length_eq_zero, List.filter_eq_nil_iff]
  constructor
  · intro h t ht
    have := h t ht
    simpa using this
  · intro h t ht
    simpa using h t ht

theorem unresolved_mono_zero (P Q : List String) (r : Repo)
    (h : unresolved P r = 0) : unresolved (P ++ Q) r = 0 := by
  rw [unresolved_zero_iff] at h ⊢
  intro t ht
  exact List.mem_append_left Q (h t ht)
theorem kahnLoop_spec (repos : List Repo) (hnodup : (idsOf repos).Nodup)
    (hclosed : ∀ r ∈ repos, ∀ t ∈ resolvedDepIds r, t ∈ idsOf repos)
    (rank : String → Nat)
    (hrank : ∀ r ∈ repos, ∀ t ∈ resolvedDepIds r, rank t < rank r.id) :
    ∀ (fuel : Nat) (P queue : List String) (cnt : String → Option Int),
      (∀ r ∈ repos, cnt r.id = some ((unresolved P r : Nat) : Int)) →
      (∀ x ∈ queue, ∃ r ∈ repos, r.id = x ∧ unresolved P r = 0) →
      queue.Nodup →
      (∀ x ∈ queue, x ∉ P) →
      (∀ x ∈ P, ∃ r ∈ repos, r.id = x ∧ unresolved P r = 0) →
      P.Nodup →
      (∀ r ∈ repos, unresolved P r = 0 → r.id ∈ P ∨ r.id ∈ queue) →
      (((idsOf repos).filter (fun x => !(P.contains x))).length + 1 ≤ fuel) →
      ((kahnLoop (adjOf repos) fuel queue cnt).flatten ++ P).Perm (idsOf repos) ∧
      (∀ i li, (kahnLoop (adjOf repos) fuel queue cnt).get? i = some li →
        ∀ x ∈ li, ∃ r ∈ repos, r.id = x ∧
          ∀ t ∈ resolvedDepIds r, t ∈ P ∨
            ∃ j lj, j < i ∧ (kahnLoop (adjOf repos) fuel queue cnt).get? j = some lj ∧ t ∈ lj) := by
  intro fuel
  induction fuel with
  | zero =>
    intro P queue cnt _ _ _ _ _ _ _ hfuel
    omega
  | succ fuel ih =>
    intro P queue cnt hconf hqueue hqnodup hqP hPzero hPnodup hH3 hfuel
    cases hq : queue.isEmpty with
    | true =>
      have hqnil : queue = [] := List.isEmpty_iff.mp hq
      have hloop : kahnLoop (adjOf repos) (fuel + 1) queue cnt = [] := by
        simp [kahnLoop, hq]
      rw [hloop]
      have hcomplete : ∀ n, ∀ r ∈ repos, rank r.id < n → r.id ∈ P := by
        intro n
        induction n with
        | zero => intro r _ h; omega
        | succ n ihn =>
          intro r hr hrn
          have hzero : unresolved P r = 0 := by
            rw [unresolved_zero_iff]
            intro t ht
            obtain ⟨r', hr', hr'id⟩ : ∃ r' ∈ repos, r'.id = t := by
              simpa [idsOf] using hclosed r hr t ht
            have htr : rank t < rank r.id := hrank r hr t ht
            have hr'n : rank r'.id < n := by
              rw [hr'id]
              omega
            have : r'.id ∈ P := ihn r' hr' hr'n
            rwa [hr'id] at this
          rcases hH3 r hr hzero with h | h
          · exact h
          · rw [hqnil] at h
            exact absurd h (List.not_mem_nil _)
      constructor
      · rw [List.flatten_nil, List.nil_append]
        rw [List.perm_ext_iff_of_nodup hPnodup hnodup]
        intro a
        constructor
        · intro ha
          obtain ⟨r, hr, hrid, _⟩ := hPzero a ha
          rw [← hrid]
          simp only [idsOf, List.mem_map]
          exact ⟨r, hr, rfl⟩
        · intro ha
          obtain ⟨r, hr, hrid⟩ : ∃ r ∈ repos, r.id = a := by simpa [idsOf] using ha
          rw [← hrid]
          exact hcomplete (rank r.id + 1) r hr (by omega)
      · intro i li hget
        simp at hget
    | false =>
      have hqne : queue ≠ [] := by
        intro h; rw [h] at hq; simp at hq
      set pl := processLayer (adjOf repos) queue cnt with hpl
      have hloop : kahnLoop (adjOf repos) (fuel + 1) queue cnt =
          queue :: kahnLoop (adjOf repos) fuel pl.2 pl.1 := by
        simp [kahnLoop, hq, ← hpl]
      obtain ⟨hconf', hother', hnqcount⟩ :=
        processLayer_spec repos hnodup P queue cnt hconf hqP hqnodup
      have hnq_mem : ∀ x, x ∈ pl.2 ↔
          ∃ r ∈ repos, r.id = x ∧ unresolved P r ≠ 0 ∧ unresolved (P ++ queue) r = 0 := by
        intro x
        rw [← List.count_pos_iff, hpl, hnqcount x]
        by_cases hc : ∃ r ∈ repos, r.id = x ∧ unresolved P r ≠ 0 ∧ unresolved (P ++ queue) r = 0
        · simp [hc]
        · simp [hc]
      have hnq_nodup : pl.2.Nodup := by
        rw [List.nodup_iff_count_le_one]
        intro a
        rw [hpl, hnqcount a]
        by_cases hc : ∃ r ∈ repos, r.id = a ∧ unresolved P r ≠ 0 ∧ unresolved (P ++ queue) r = 0
        · simp [hc]
        · simp [hc]
      have hqueue' : ∀ x ∈ pl.2, ∃ r ∈ repos, r.id = x ∧ unresolved (P ++ queue) r = 0 := by
        intro x hx
        obtain ⟨r, hr, hrid, _, hz⟩ := (hnq_mem x).mp hx
        exact ⟨r, hr, hrid, hz⟩
      have hqP' : ∀ x ∈ pl.2, x ∉ P ++ queue := by
        intro x hx hxPq
        obtain ⟨r, hr, hrid, hnz, _⟩ := (hnq_mem x).mp hx
        rcases List.mem_append.mp hxPq with hxP | hxq
        · obtain ⟨r₂, hr₂, hr₂id, hz₂⟩ := hPzero x hxP
          have : r₂ = r := id_inj repos hnodup r₂ hr₂ r hr (by rw [hr₂id, hrid])
          subst this
          exact hnz hz₂
        · obtain ⟨r₃, hr₃, hr₃id, hz₃⟩ := hqueue x hxq
          have : r₃ = r := id_inj repos hnodup r₃ hr₃ r hr (by rw [hr₃id, hrid])
          subst this
          exact hnz hz₃
      have hPzero' : ∀ x ∈ P ++ queue, ∃ r ∈ repos, r.id = x ∧
          unresolved (P ++ queue) r = 0 := by
        intro x hx
        rcases List.mem_append.mp hx with hxP | hxq
        · obtain ⟨r, hr, hrid, hz⟩ := hPzero x hxP
          exact ⟨r, hr, hrid, unresolved_mono_zero P queue r hz⟩
        · obtain ⟨r, hr, hrid, hz⟩ := hqueue x hxq
          exact ⟨r, hr, hrid, unresolved_mono_zero P queue r hz⟩
      have hPnodup' : (P ++ queue).Nodup := by
        rw [List.nodup_append]
        exact ⟨hPnodup, hqnodup, fun a haP haq => hqP a haq haP⟩
      have hH3' : ∀ r ∈ repos, unresolved (P ++ queue) r = 0 →
          r.id ∈ P ++ queue ∨ r.id ∈ pl.2 := by
        intro r hr hz
        by_cases h0 : unresolved P r = 0
        · rcases hH3 r hr h0 with h | h
          · exact Or.inl (List.mem_append_left queue h)
          · exact Or.inl (List.mem_append_right P h)
        · exact Or.inr ((hnq_mem r.id).mpr ⟨r, hr, rfl, h0, hz⟩)
      have hfuel' : ((idsOf repos).filter
          (fun x => !((P ++ queue).contains x))).length + 1 ≤ fuel := by
        obtain ⟨z₀, hz₀⟩ := List.exists_mem_of_ne_nil queue hqne
        obtain ⟨r₀, hr₀, hr₀id, _⟩ := hqueue z₀ hz₀
        have hz₀ids : z₀ ∈ idsOf repos := by
          rw [← hr₀id]
          simp only [idsOf, List.mem_map]
          exact ⟨r₀, hr₀, rfl⟩
        have hz₀P : z₀ ∉ P := hqP z₀ hz₀
        have hlt := length_filter_lt_of_witness
          (fun x => !(P.contains x)) (fun x => !((P ++ queue).contains x))
          (by
            intro a ha
            have h1 : a ∉ P ++ queue := by simpa using ha
            have h2 : a ∉ P := fun h => h1 (List.mem_append_left queue h)
            simpa using h2)
          (idsOf repos) z₀ hz₀ids
          (by simpa using hz₀P)
          (by simp [hz₀])
        omega
      obtain ⟨ihperm, ihdom⟩ := ih (P ++ queue) pl.2 pl.1 hconf' hqueue' hnq_nodup
        hqP' hPzero' hPnodup' hH3' hfuel'
      rw [hloop]
      constructor
      · rw [List.flatten_cons]
        have h1 : ((queue ++ (kahnLoop (adjOf repos) fuel pl.2 pl.1).flatten) ++ P).Perm
            ((kahnLoop (adjOf repos) fuel pl.2 pl.1).flatten ++ (P ++ queue)) := by
          refine ((List.perm_append_comm).append_right P).trans ?_
          rw [List.append_assoc]
          exact List.Perm.append_left _ List.perm_append_comm
        exact h1.trans ihperm
      · intro i li hget x hx
        cases i with
        | zero =>
          have hli : li = queue := by
            have := hget
            simp at this
            exact this.symm
          subst hli
          obtain ⟨r, hr, hrid, hz⟩ := hqueue x hx
          refine ⟨r, hr, hrid, fun t ht => Or.inl ?_⟩
          exact (unresolved_zero_iff P r).mp hz t ht
        | succ i' =>
          have hget' : (kahnLoop (adjOf repos) fuel pl.2 pl.1).get? i' = some li := by
            simpa using hget
          obtain ⟨r, hr, hrid, hdeps⟩ := ihdom i' li hget' x hx
          refine ⟨r, hr, hrid, fun t ht => ?_⟩
          rcases hdeps t ht with htP | ⟨j, lj, hj, hgetj, htlj⟩
          · rcases List.mem_append.mp htP with h | h
            · exact Or.inl h
            · exact Or.inr ⟨0, queue, by omega, by simp, h⟩
          · exact Or.inr ⟨j + 1, lj, by omega, by simpa using hgetj, htlj⟩

theorem unresolved_nil (r : Repo) : unresolved [] r = (resolvedDepIds r).length := by
  simp [unresolved]

theorem flatten_layer_unique :
    ∀ (L : List (List String)) (t : String), L.flatten.Nodup →
      ∀ j j' lj lj', L.get? j = some lj → L.get? j' = some lj' →
        t ∈ lj → t ∈ lj' → j = j' := by
  intro L
  induction L with
  | nil =>
    intro t _ j j' lj lj' hget
    simp at hget
  | cons l L' ih =>
    intro t hnodup j j' lj lj' hget hget' htj htj'
    rw [List.flatten_cons, List.nodup_append] at hnodup
    obtain ⟨hl, hL', hdisj⟩ := hnodup
    cases j with
    | zero =>
      cases j' with
      | zero => rfl
      | succ j'' =>
        exfalso
        have hlj : lj = l := by
          have := hget; simp at this; exact this.symm
        have hget'' : L'.get? j'' = some lj' := by simpa using hget'
        have : t ∈ L'.flatten := by
          rw [List.mem_flatten]
          exact ⟨lj', List.get?_mem hget'', htj'⟩
        exact hdisj (hlj ▸ htj) this
    | succ j'' =>
      cases j' with
      | zero =>
        exfalso
        have hlj' : lj' = l := by
          have := hget'; simp at this; exact this.symm
        have hget'' : L'.get? j'' = some lj := by simpa using hget
        have : t ∈ L'.flatten := by
          rw [List.mem_flatten]
          exact ⟨lj, List.get?_mem hget'', htj⟩
        exact hdisj (hlj' ▸ htj') this
      | succ j''' =>
        have h1 : L'.get? j'' = some lj := by simpa using hget
        have h2 : L'.get? j''' = some lj' := by simpa using hget'
        have := ih t hL' j'' j''' lj lj' h1 h2 htj htj'
        omega

/-- C1: on an acyclic node set whose ids are distinct and whose resolved
dependency ids all refer to nodes of the set, `calculateLayers` (a) emits a
partition of all node ids — the concatenation of the layers is a
permutation of the id list, so every node appears in exactly one layer —,
(b) places every node in a strictly later layer than each of its resolved
internal dependencies, and (c) puts in layer 0 exactly the nodes with zero
resolved internal dependencies. -/
theorem C1_calculateLayers (repos : List Repo)
    (hnodup : (idsOf repos).Nodup)
    (hclosed : ∀ r ∈ repos, ∀ t ∈ resolvedDepIds r, t ∈ idsOf repos)
    (hacyclic : Acyclic repos) :
    ((calculateLayers repos).flatten).Perm (idsOf repos) ∧
    (∀ r ∈ repos, ∀ t ∈ resolvedDepIds r, ∀ i j li lj,
        (calculateLayers repos).get? i = some li →
        (calculateLayers repos).get? j = some lj →
        r.id ∈ li → t ∈ lj → j < i) ∧
    (∀ x, x ∈ (calculateLayers repos).getD 0 [] ↔
        ∃ r ∈ repos, r.id = x ∧ resolvedDepIds r = []) := by
  obtain ⟨rank, hrank⟩ := hacyclic
  have hcalc : calculateLayers repos =
      kahnLoop (adjOf repos) (repos.length + 1)
        ((repos.filter (fun r => (initCnt repos r.id).getD 0 = 0)).map (fun r => r.id))
        (initCnt repos) := rfl
  set queue0 := (repos.filter (fun r => (initCnt repos r.id).getD 0 = 0)).map
    (fun r => r.id) with hqueue0
  have hcond : ∀ r ∈ repos, (((initCnt repos r.id).getD 0 = 0) ↔ resolvedDepIds r = []) := by
    intro r hr
    rw [initCnt_mem repos hnodup r hr]
    simp only [Option.getD_some]
    constructor
    · intro h
      have : (resolvedDepIds r).length = 0 := by exact_mod_cast h
      exact List.length_eq_zero.mp this
    · intro h
      rw [h]
      simp
  have hq0mem : ∀ x, x ∈ queue0 ↔ ∃ r ∈ repos, r.id = x ∧ resolvedDepIds r = [] := by
    intro x
    rw [hqueue0]
    simp only [List.mem_map, List.mem_filter]
    constructor
    · rintro ⟨r, ⟨hr, hc⟩, hrid⟩
      exact ⟨r, hr, hrid, (hcond r hr).mp (by simpa using hc)⟩
    · rintro ⟨r, hr, hrid, hdeps⟩
      exact ⟨r, ⟨hr, by simpa using (hcond r hr).mpr hdeps⟩, hrid⟩
  have hmain := kahnLoop_spec repos hnodup hclosed rank hrank
    (repos.length + 1) [] queue0 (initCnt repos)
    (by
      intro r hr
      rw [initCnt_mem repos hnodup r hr, unresolved_nil])
    (by
      intro x hx
      obtain ⟨r, hr, hrid, hdeps⟩ := (hq0mem x).mp hx
      refine ⟨r, hr, hrid, ?_⟩
      rw [unresolved_nil, hdeps]
      rfl)
    (by
      rw [hqueue0]
      have hsub : (repos.filter (fun r => (initCnt repos r.id).getD 0 = 0)).Sublist repos :=
        List.filter_sublist repos
      exact List.Nodup.sublist (hsub.map (fun r => r.id)) hnodup)
    (by intro x _ h; exact absurd h (List.not_mem_nil x))
    (by intro x h; exact absurd h (List.not_mem_nil x))
    List.nodup_nil
    (by
      intro r hr hz
      right
      rw [unresolved_nil] at hz
      exact (hq0mem r.id).mpr ⟨r, hr, rfl, List.length_eq_zero.mp hz⟩)
    (by
      have : (idsOf repos).filter (fun x => !(([] : List String).contains x)) = idsOf repos := by
        simp
      rw [this]
      have : (idsOf repos).length = repos.length := List.length_map repos (fun r => r.id)
      omega)
  obtain ⟨hperm, hdom⟩ := hmain
  rw [List.append_nil] at hperm
  rw [hcalc] at *
  have hflatnodup : (kahnLoop (adjOf repos) (repos.length + 1) queue0
      (initCnt repos)).flatten.Nodup := (hperm.nodup_iff).mpr hnodup
  refine ⟨hperm, ?_, ?_⟩
  · intro r hr t ht i j li lj hgi hgj hri htj
    obtain ⟨r', hr', hr'id, hdeps⟩ := hdom i li hgi r.id hri
    have hrr : r' = r := id_inj repos hnodup r' hr' r hr hr'id
    subst hrr
    rcases hdeps t ht with h | ⟨j', lj', hj', hgj', htlj'⟩
    · exact absurd h (List.not_mem_nil t)
    · have : j = j' := flatten_layer_unique _ t hflatnodup j j' lj lj' hgj hgj' htj htlj'
      omega
  · intro x
    have hlayer0 : (kahnLoop (adjOf repos) (repos.length + 1) queue0
        (initCnt repos)).getD 0 [] = queue0 := by
      cases hq : queue0.isEmpty with
      | true =>
        have : queue0 = [] := List.isEmpty_iff.mp hq
        rw [this]
        simp [kahnLoop, hq, this]
      | false =>
        simp [kahnLoop, hq]
    rw [hlayer0]
    exact hq0mem x

/-- C1, witness: the partition part of `C1_calculateLayers` instantiated on
the spec §8 three-node scenario (acyclic via the rank 0/1/2 assignment). -/
theorem C1_calculateLayers_witness :
    ((calculateLayers scenarioRepos).flatten).Perm (idsOf scenarioRepos) :=
  (C1_calculateLayers scenarioRepos (by decide) (by decide)
    ⟨fun s => if s = "lib-a" then 0 else if s = "lib-b" then 1 else 2, by decide⟩).1

/-! ### `TaskQueue` (task-queue.ts)

`TaskQueue.run` spawns `min(concurrency, items.length)` asynchronous
workers that pull indices from a shared cursor and write each item's
settled outcome into `results[currentIndex]`.  The single-threaded event
loop interleaves the workers at their await points; the embedding makes
that interleaving an explicit small-step machine driven by an arbitrary
`schedule` choice function, so theorems quantify over every completion
order.  A worker body is a function into `Except` — a thrown exception is
the `.error` case, which `run` records as the item's `error` entry. -/

/-- One entry of the list `TaskQueue.run` resolves to (task-queue.ts
`TaskResult`). -/
structure TaskResult (T R : Type) where
  item : T
  result : Option R := none
  error : Option String := none
  deriving Repr, DecidableEq

/-- The `try`/`catch` around one worker invocation: a normal return becomes
`{item, result}`, a thrown error becomes `{item, error}`. -/
def settle {T R : Type} (f : T → Except String R) (x : T) : TaskResult T R :=
  match f x with
  | .ok r => { item := x, result := some r }
  | .error e => { item := x, error := some e }

/-- The phase of one logical worker between suspension points of the event
loop: about to read the cursor, awaiting the worker function on a claimed
index, or returned from `runNext`. -/
inductive WorkerState where
  | idle
  | processing (idx : Nat)
  | finished
  deriving Repr, DecidableEq

/-- State of the `run` machine: shared `index` cursor, each worker's phase,
the `results` array (a slot is `none` until assigned), and the log of
claimed indices (the order worker invocations start). -/
structure QueueState (T R : Type) where
  cursor : Nat
  workers : List WorkerState
  results : List (Option (TaskResult T R))
  claimed : List Nat
  deriving Repr

/-- One step of worker `w`: an idle worker claims the cursor index (or
finishes when the cursor is exhausted — the `while` guard); a processing
worker completes its awaited item, writing `results[i]`. -/
def stepWorker {T R : Type} (items : List T) (f : T → Except String R)
    (st : QueueState T R) (w : Nat) : QueueState T R :=
  match st.workers.get? w with
  | none => st
  | some .finished => st
  | some .idle =>
      if st.cursor < items.length then
        { st with
            cursor := st.cursor + 1
            workers := st.workers.set w (.processing st.cursor)
            claimed := st.claimed ++ [st.cursor] }
      else { st with workers := st.workers.set w .finished }
  | some (.processing i) =>
      { st with
          results := st.results.set i ((items.get? i).map (settle f))
          workers := st.workers.set w .idle }

/-- Index of the first worker that has not finished (0 when none exists —
irrelevant, since the loop has already stopped then). -/
def firstActive : List WorkerState → Nat
  | [] => 0
  | s :: rest => if s = .finished then firstActive rest + 1 else 0

/-- The scheduler's pick, normalised to a live worker: an out-of-range or
finished pick falls back to the first unfinished worker, so every step of
the machine makes progress while the run is incomplete. -/
def normalizePick (ws : List WorkerState) (w : Nat) : Nat :=
  match ws.get? w with
  | some s => if s = .finished then firstActive ws else w
  | none => firstActive ws

def allFinished (ws : List WorkerState) : Bool :=
  ws.all (fun s => s == .finished)

/-- The event loop: while some worker is unfinished, let the schedule pick
which worker advances.  Every step strictly decreases
`2*(n - cursor) + #processing + #unfinished`, so the fuel passed by
`TaskQueue.run` is never exhausted. -/
def runLoop {T R : Type} (items : List T) (f : T → Except String R)
    (sched : Nat → Nat) :
    Nat → Nat → QueueState T R → QueueState T R
  | 0, _, st => st
  | fuel + 1, t, st =>
      if allFinished st.workers then st
      else runLoop items f sched fuel (t + 1)
        (stepWorker items f st (normalizePick st.workers (sched t)))

/-- `TaskQueue.run`: spawn `min(concurrency, items.length)` workers over a
shared cursor and collect per-index outcomes; the JS sparse `results`
array is modelled as option slots compacted at the end (with at least one
worker every slot is assigned; with none the result is empty). -/
def TaskQueue.run {T R : Type} (concurrency : Int) (items : List T)
    (f : T → Except String R) (sched : Nat → Nat) : List (TaskResult T R) :=
  let W := (min concurrency (items.length : Int)).toNat
  let st0 : QueueState T R :=
    { cursor := 0
      workers := List.replicate W .idle
      results := List.replicate items.length none
      claimed := [] }
  (runLoop items f sched (2 * items.length + W + 1) 0 st0).results.reduceOption

/-- The claimed-index log of a run: which items had their worker invocation
started, in claiming order. -/
def TaskQueue.runClaimed {T R : Type} (concurrency : Int) (items : List T)
    (f : T → Except String R) (sched : Nat → Nat) : List Nat :=
  let W := (min concurrency (items.length : Int)).toNat
  let st0 : QueueState T R :=
    { cursor := 0
      workers := List.replicate W .idle
      results := List.replicate items.length none
      claimed := [] }
  (runLoop items f sched (2 * items.length + W + 1) 0 st0).claimed

def procCount (ws : List WorkerState) : Nat :=
  (ws.filter (fun s => match s with | .processing _ => true | _ => false)).length

def unfinCount (ws : List WorkerState) : Nat :=
  (ws.filter (fun s => !(s == .finished))).length

def qMeasure {T R : Type} (n : Nat) (st : QueueState T R) : Nat :=
  2 * (n - st.cursor) + procCount st.workers + unfinCount st.workers

/-- Invariant of the `run` machine: the cursor never passes the item count,
worker and result array lengths are fixed, unclaimed slots are unassigned,
every claimed slot is either assigned its settled value or owned by an
in-flight worker, in-flight indices are claimed, and a finished worker
certifies cursor exhaustion. -/
def QInv {T R : Type} (items : List T) (f : T → Except String R) (W : Nat)
    (st : QueueState T R) : Prop :=
  st.cursor ≤ items.length ∧
  st.workers.length = W ∧
  st.results.length = items.length ∧
  (∀ i, st.cursor ≤ i → i < items.length → st.results.get? i = some none) ∧
  (∀ i, i < st.cursor →
      st.results.get? i = some ((items.get? i).map (settle f)) ∨
      ((∃ w, st.workers.get? w = some (.processing i)) ∧ st.results.get? i = some none)) ∧
  (∀ w i, st.workers.get? w = some (.processing i) → i < st.cursor) ∧
  ((∃ w, st.workers.get? w = some .finished) → items.length ≤ st.cursor)

theorem filter_set_length :
    ∀ (ws : List WorkerState) (w : Nat) (s s' : WorkerState) (p : WorkerState → Bool),
      ws.get? w = some s →
      ((ws.set w s').filter p).length + (if p s then 1 else 0) =
        (ws.filter p).length + (if p s' then 1 else 0) := by
  intro ws
  induction ws with
  | nil => intro w s s' p h; simp at h
  | cons a rest ih =>
    intro w s s' p h
    cases w with
    | zero =>
      have ha : s = a := by simpa using h.symm
      subst ha
      simp only [List.set_cons_zero, List.filter_cons]
      cases hp : p s <;> cases hp' : p s' <;> simp
    | succ w' =>
      have h' : rest.get? w' = some s := by simpa using h
      have := ih w' s s' p h'
      simp only [List.set_cons_succ, List.filter_cons]
      cases hp : p a <;> simp <;> omega

theorem firstActive_spec :
    ∀ (ws : List WorkerState), (∃ s ∈ ws, s ≠ .finished) →
      ∃ s, ws.get? (firstActive ws) = some s ∧ s ≠ .finished := by
  intro ws
  induction ws with
  | nil => rintro ⟨s, hs, _⟩; exact absurd hs (List.not_mem_nil s)
  | cons a rest ih =>
    rintro ⟨s, hs, hsf⟩
    by_cases ha : a = WorkerState.finished
    · have hrest : ∃ s ∈ rest, s ≠ WorkerState.finished := by
        rcases List.mem_cons.mp hs with rfl | h
        · exact absurd ha hsf
        · exact ⟨s, h, hsf⟩
      obtain ⟨s', hs', hs'f⟩ := ih hrest
      refine ⟨s', ?_, hs'f⟩
      simp only [firstActive, ha, if_pos rfl, List.get?_cons_succ]
      exact hs'
    · exact ⟨a, by simp [firstActive, ha], ha⟩

theorem normalizePick_spec (ws : List WorkerState) (w : Nat)
    (h : ¬ allFinished ws = true) :
    ∃ s, ws.get? (normalizePick ws w) = some s ∧ s ≠ .finished := by
  have hex : ∃ s ∈ ws, s ≠ WorkerState.finished := by
    have : ∃ s ∈ ws, ¬ ((s == WorkerState.finished) = true) := by
      simpa [allFinished] using h
    obtain ⟨s, hs, hsb⟩ := this
    exact ⟨s, hs, fun heq => hsb (by simp [heq])⟩
  unfold normalizePick
  cases hg : ws.get? w with
  | none => exact firstActive_spec ws hex
  | some s =>
    by_cases hs : s = WorkerState.finished
    · simp only [hs, if_pos rfl]
      exact firstActive_spec ws hex
    · simp only [if_neg hs]
      exact ⟨s, hg, hs⟩

theorem get?_set_self {α : Type} (l : List α) (i : Nat) (v : α) (h : i < l.length) :
    (l.set i v).get? i = some v := by
  rw [List.get?_eq_getElem?]
  simp [List.getElem?_set_self', h]

theorem get?_set_other {α : Type} (l : List α) (i j : Nat) (v : α) (h : i ≠ j) :
    (l.set i v).get? j = l.get? j := by
  rw [List.get?_eq_getElem?, List.get?_eq_getElem?, List.getElem?_set_ne h]
theorem stepWorker_spec {T R : Type} (items : List T) (f : T → Except String R)
    (W : Nat) (st : QueueState T R) (hinv : QInv items f W st)
    (w : Nat) (s : WorkerState) (hw : st.workers.get? w = some s)
    (hs : s ≠ .finished) :
    QInv items f W (stepWorker items f st w) ∧
    qMeasure items.length (stepWorker items f st w) < qMeasure items.length st := by
  obtain ⟨hc, hWlen, hRlen, hUn, hCl, hProc, hFin⟩ := hinv
  have hwlt : w < st.workers.length := (List.get?_eq_some.mp hw).1
  have hwE : st.workers[w]? = some s := by
    rw [← List.get?_eq_getElem?]
    exact hw
  cases s with
  | finished => exact absurd rfl hs
  | idle =>
    by_cases hcn : st.cursor < items.length
    · have hstep : stepWorker items f st w = { st with
          cursor := st.cursor + 1
          workers := st.workers.set w (.processing st.cursor)
          claimed := st.claimed ++ [st.cursor] } := by
        unfold stepWorker
        rw [hw]
        simp [hcn]
      rw [hstep]
      constructor
      · unfold QInv
        dsimp only
        refine ⟨by omega, by simpa using hWlen, hRlen, ?_, ?_, ?_, ?_⟩
        · intro i hi hin
          exact hUn i (by omega) hin
        · intro i hi
          by_cases hic : i < st.cursor
          · rcases hCl i hic with h | ⟨⟨w₂, hw₂⟩, hnone⟩
            · exact Or.inl h
            · have hne : w ≠ w₂ := by
                intro heq
                rw [← heq, hw] at hw₂
                simp at hw₂
              exact Or.inr ⟨⟨w₂, by rw [get?_set_other _ _ _ _ hne]; exact hw₂⟩, hnone⟩
          · have hieq : i = st.cursor := by omega
            subst hieq
            exact Or.inr ⟨⟨w, get?_set_self _ _ _ hwlt⟩, hUn st.cursor (le_refl _) hcn⟩
        · intro w' i' hw'
          by_cases hne : w = w'
          · subst hne
            rw [get?_set_self _ _ _ hwlt] at hw'
            simp at hw'
            omega
          · rw [get?_set_other _ _ _ _ hne] at hw'
            have := hProc w' i' hw'
            omega
        · rintro ⟨w', hw'⟩
          by_cases hne : w = w'
          · subst hne
            rw [get?_set_self _ _ _ hwlt] at hw'
            simp at hw'
          · rw [get?_set_other _ _ _ _ hne] at hw'
            have := hFin ⟨w', hw'⟩
            omega
      · have hproc := filter_set_length st.workers w .idle (.processing st.cursor)
          (fun s => match s with | .processing _ => true | _ => false) hw
        have hunf := filter_set_length st.workers w .idle (.processing st.cursor)
          (fun s => !(s == .finished)) hw
        unfold qMeasure procCount unfinCount
        dsimp only
        simp at hproc hunf
        omega
    · have hstep : stepWorker items f st w = { st with
          workers := st.workers.set w .finished } := by
        unfold stepWorker
        rw [hw]
        simp [hcn]
      rw [hstep]
      constructor
      · unfold QInv
        dsimp only
        refine ⟨hc, by simpa using hWlen, hRlen, hUn, ?_, ?_, ?_⟩
        · intro i hi
          rcases hCl i hi with h | ⟨⟨w₂, hw₂⟩, hnone⟩
          · exact Or.inl h
          · have hne : w ≠ w₂ := by
              intro heq
              rw [← heq, hw] at hw₂
              simp at hw₂
            exact Or.inr ⟨⟨w₂, by rw [get?_set_other _ _ _ _ hne]; exact hw₂⟩, hnone⟩
        · intro w' i' hw'
          by_cases hne : w = w'
          · subst hne
            rw [get?_set_self _ _ _ hwlt] at hw'
            simp at hw'
          · rw [get?_set_other _ _ _ _ hne] at hw'
            exact hProc w' i' hw'
        · intro _
          omega
      · have hproc := filter_set_length st.workers w .idle .finished
          (fun s => match s with | .processing _ => true | _ => false) hw
        have hunf := filter_set_length st.workers w .idle .finished
          (fun s => !(s == .finished)) hw
        unfold qMeasure procCount unfinCount
        dsimp only
        simp at hproc hunf
        omega
  | processing i =>
    have hicur : i < st.cursor := hProc w i hw
    have hstep : stepWorker items f st w = { st with
        results := st.results.set i ((items.get? i).map (settle f))
        workers := st.workers.set w .idle } := by
      unfold stepWorker
      rw [hw]
    rw [hstep]
    have hiresl : i < st.results.length := by omega
    constructor
    · unfold QInv
      dsimp only
      refine ⟨hc, by simpa using hWlen, by simpa using hRlen, ?_, ?_, ?_, ?_⟩
      · intro i' hi' hin
        have hne : i ≠ i' := by omega
        rw [get?_set_other _ _ _ _ hne]
        exact hUn i' hi' hin
      · intro i' hi'
        by_cases hie : i' = i
        · subst hie
          exact Or.inl (get?_set_self _ _ _ hiresl)
        · have hne : i ≠ i' := fun h => hie h.symm
          rw [get?_set_other _ _ _ _ hne]
          rcases hCl i' hi' with h | ⟨⟨w₂, hw₂⟩, hnone⟩
          · exact Or.inl h
          · have hwne : w ≠ w₂ := by
              intro heq
              rw [← heq, hw] at hw₂
              simp at hw₂
              exact hie hw₂.symm
            exact Or.inr ⟨⟨w₂, by rw [get?_set_other _ _ _ _ hwne]; exact hw₂⟩, hnone⟩
      · intro w' i' hw'
        by_cases hne : w = w'
        · subst hne
          rw [get?_set_self _ _ _ hwlt] at hw'
          simp at hw'
        · rw [get?_set_other _ _ _ _ hne] at hw'
          exact hProc w' i' hw'
      · rintro ⟨w', hw'⟩
        by_cases hne : w = w'
        · subst hne
          rw [get?_set_self _ _ _ hwlt] at hw'
          simp at hw'
        · rw [get?_set_other _ _ _ _ hne] at hw'
          exact hFin ⟨w', hw'⟩
    · have hproc := filter_set_length st.workers w (.processing i) .idle
        (fun s => match s with | .processing _ => true | _ => false) hw
      have hunf := filter_set_length st.workers w (.processing i) .idle
        (fun s => !(s == .finished)) hw
      unfold qMeasure procCount unfinCount
      dsimp only
      simp at hproc hunf
      omega

theorem runLoop_spec {T R : Type} (items : List T) (f : T → Except String R)
    (sched : Nat → Nat) (W : Nat) :
    ∀ (fuel t : Nat) (st : QueueState T R), QInv items f W st →
      qMeasure items.length st < fuel →
      QInv items f W (runLoop items f sched fuel t st) ∧
      allFinished (runLoop items f sched fuel t st).workers = true := by
  intro fuel
  induction fuel with
  | zero => intro t st _ h; omega
  | succ fuel ih =>
    intro t st hinv hm
    by_cases hAll : allFinished st.workers = true
    · have : runLoop items f sched (fuel + 1) t st = st := by
        simp [runLoop, hAll]
      rw [this]
      exact ⟨hinv, hAll⟩
    · have hstep : runLoop items f sched (fuel + 1) t st =
          runLoop items f sched fuel (t + 1)
            (stepWorker items f st (normalizePick st.workers (sched t))) := by
        simp [runLoop, hAll]
      rw [hstep]
      obtain ⟨s, hgs, hsf⟩ := normalizePick_spec st.workers (sched t) hAll
      obtain ⟨hinv', hdec⟩ := stepWorker_spec items f W st hinv _ s hgs hsf
      exact ih (t + 1) _ hinv' (by omega)

theorem procCount_replicate_idle (W : Nat) :
    procCount (List.replicate W .idle) = 0 := by
  induction W with
  | zero => rfl
  | succ W ih => simp [procCount, List.replicate_succ, List.filter_cons] at ih ⊢

theorem unfinCount_replicate_idle (W : Nat) :
    unfinCount (List.replicate W .idle) = W := by
  induction W with
  | zero => rfl
  | succ W ih =>
    simp only [unfinCount, List.replicate_succ, List.filter_cons] at ih ⊢
    simp [ih]

theorem reduceOption_replicate_none {α : Type} (n : Nat) :
    (List.replicate n (none : Option α)).reduceOption = [] := by
  induction n with
  | zero => rfl
  | succ n ih => simpa [List.replicate_succ] using ih

theorem reduceOption_map_some {α β : Type} (l : List α) (g : α → β) :
    (l.map (fun x => some (g x))).reduceOption = l.map g := by
  induction l with
  | nil => rfl
  | cons a r ih => simp [List.reduceOption_cons_of_some, ih]

theorem replicate_get?_cases {α : Type} (n w : Nat) (a : α) (s : α)
    (h : (List.replicate n a).get? w = some s) : s = a := by
  rw [List.get?_eq_getElem?, List.getElem?_replicate] at h
  by_cases hw : w < n
  · simp [hw] at h
    exact h.symm
  · simp [hw] at h

theorem QInv_init {T R : Type} (items : List T) (f : T → Except String R) (W : Nat) :
    QInv items f W
      { cursor := 0
        workers := List.replicate W .idle
        results := List.replicate items.length none
        claimed := [] } := by
  unfold QInv
  dsimp only
  refine ⟨by omega, by simp, by simp, ?_, ?_, ?_, ?_⟩
  · intro i _ hin
    rw [List.get?_eq_getElem?, List.getElem?_replicate]
    simp [hin]
  · intro i hi
    omega
  · intro w i h
    have := replicate_get?_cases W w WorkerState.idle _ h
    simp at this
  · rintro ⟨w, h⟩
    have := replicate_get?_cases W w WorkerState.idle _ h
    simp at this

/-- C8: with at least one worker, `TaskQueue.run` resolves — under every
scheduling of worker completions — to exactly one entry per item, in input
order, entry `i` holding `items[i]`: the result list is the pointwise
settlement of the items, so an item whose worker throws carries its own
error entry while every other item still records its own result. -/
theorem C8_run_order_and_isolation {T R : Type} (items : List T)
    (f : T → Except String R) (concurrency : Int) (sched : Nat → Nat)
    (hconc : 1 ≤ concurrency) :
    TaskQueue.run concurrency items f sched = items.map (settle f) := by
  set W := (min concurrency (items.length : Int)).toNat with hW
  set st0 : QueueState T R :=
    { cursor := 0
      workers := List.replicate W .idle
      results := List.replicate items.length none
      claimed := [] } with hst0
  have hrun : TaskQueue.run concurrency items f sched =
      (runLoop items f sched (2 * items.length + W + 1) 0 st0).results.reduceOption := rfl
  rw [hrun]
  have hm0 : qMeasure items.length st0 < 2 * items.length + W + 1 := by
    unfold qMeasure
    rw [hst0]
    dsimp only
    rw [procCount_replicate_idle, unfinCount_replicate_idle]
    omega
  obtain ⟨hinvF, hAllF⟩ := runLoop_spec items f sched W
    (2 * items.length + W + 1) 0 st0 (QInv_init items f W) hm0
  set fin := runLoop items f sched (2 * items.length + W + 1) 0 st0 with hfin
  obtain ⟨hcF, hWlenF, hRlenF, hUnF, hClF, hProcF, hFinF⟩ := hinvF
  by_cases hn : items.length = 0
  · have hitems : items = [] := List.length_eq_zero.mp hn
    have hresnil : fin.results = [] := by
      apply List.length_eq_zero.mp
      rw [hRlenF, hn]
    rw [hresnil, hitems]
    rfl
  · have hW1 : 1 ≤ W := by
      have h1 : (1 : Int) ≤ min concurrency (items.length : Int) := by
        apply le_min hconc
        have : 1 ≤ items.length := by omega
        exact_mod_cast this
      omega
    obtain ⟨s, hg0⟩ : ∃ s, fin.workers.get? 0 = some s := by
      cases hg : fin.workers.get? 0 with
      | none =>
        have := List.get?_eq_none.mp hg
        omega
      | some s => exact ⟨s, rfl⟩
    have hsFin : s = .finished := by
      have hmem : s ∈ fin.workers := List.get?_mem hg0
      have := List.all_eq_true.mp hAllF s hmem
      simpa using this
    have hcursor : fin.cursor = items.length := by
      rw [hsFin] at hg0
      have := hFinF ⟨0, hg0⟩
      omega
    have hnoproc : ∀ i, ¬ ∃ w, fin.workers.get? w = some (.processing i) := by
      rintro i ⟨w, hw⟩
      have hmem := List.get?_mem hw
      have := List.all_eq_true.mp hAllF _ hmem
      simp at this
    have hres : ∀ i, i < items.length →
        fin.results.get? i = some ((items.get? i).map (settle f)) := by
      intro i hi
      rcases hClF i (by omega) with h | ⟨hex, _⟩
      · exact h
      · exact absurd hex (hnoproc i)
    have heq : fin.results = items.map (fun x => some (settle f x)) := by
      apply List.ext_get?
      intro i
      by_cases hi : i < items.length
      · rw [hres i hi, List.get?_map]
        cases hg : items.get? i with
        | none =>
          have := List.get?_eq_none.mp hg
          omega
        | some x => simp
      · have h1 : fin.results.get? i = none := List.get?_eq_none.mpr (by omega)
        have h2 : (items.map (fun x => some (settle f x))).get? i = none :=
          List.get?_eq_none.mpr (by simpa using by omega)
        rw [h1, h2]
    rw [heq, reduceOption_map_some]

/-- C8, witness: a three-item run with concurrency 2, an alternating
schedule, and a worker that throws on item 2: the result preserves input
order and isolates the failure to item 2's entry. -/
theorem C8_run_order_and_isolation_witness :
    TaskQueue.run 2 [1, 2, 3]
      (fun x => if x = 2 then .error "boom" else .ok (x * 10))
      (fun t => t % 2) =
      [⟨1, some 10, none⟩, ⟨2, none, some "boom"⟩, ⟨3, some 30, none⟩] := by
  rw [C8_run_order_and_isolation [1, 2, 3]
    (fun x => if x = 2 then .error "boom" else .ok (x * 10)) 2 (fun t => t % 2)
    (by norm_num)]
  decide

/-- C10: with zero or negative concurrency and a non-empty item list,
`TaskQueue.run` spawns `min(concurrency, items.length) ≤ 0` — i.e. zero —
workers, resolves to the empty list, and never starts a worker invocation
(the claimed-index log stays empty): out-of-range concurrency values are
not clamped. -/
theorem C10_run_nonpositive_concurrency {T R : Type} (items : List T)
    (f : T → Except String R) (concurrency : Int) (sched : Nat → Nat)
    (hconc : concurrency ≤ 0) (hne : items ≠ []) :
    (min concurrency (items.length : Int)).toNat = 0 ∧
    TaskQueue.run concurrency items f sched = [] ∧
    TaskQueue.runClaimed concurrency items f sched = [] := by
  have hW : (min concurrency (items.length : Int)).toNat = 0 := by
    have h := min_le_left concurrency (items.length : Int)
    omega
  have hstop : runLoop items f sched
      (2 * items.length + (min concurrency (items.length : Int)).toNat + 1) 0
      ({ cursor := 0
         workers := List.replicate (min concurrency (items.length : Int)).toNat .idle
         results := List.replicate items.length none
         claimed := [] } : QueueState T R) =
      { cursor := 0
        workers := List.replicate (min concurrency (items.length : Int)).toNat .idle
        results := List.replicate items.length none
        claimed := [] } := by
    rw [hW]
    simp [runLoop, allFinished]
  refine ⟨hW, ?_, ?_⟩
  · have hrun : TaskQueue.run concurrency items f sched =
        (runLoop items f sched
          (2 * items.length + (min concurrency (items.length : Int)).toNat + 1) 0
          { cursor := 0
            workers := List.replicate (min concurrency (items.length : Int)).toNat .idle
            results := List.replicate items.length none
            claimed := [] }).results.reduceOption := rfl
    rw [hrun, hstop]
    exact reduceOption_replicate_none items.length
  · have hrun : TaskQueue.runClaimed concurrency items f sched =
        (runLoop items f sched
          (2 * items.length + (min concurrency (items.length : Int)).toNat + 1) 0
          { cursor := 0
            workers := List.replicate (min concurrency (items.length : Int)).toNat .idle
            results := List.replicate items.length none
            claimed := [] }).claimed := rfl
    rw [hrun, hstop]

/-- C10, witness: concurrency 0 on the one-item list `[1]`. -/
theorem C10_run_nonpositive_concurrency_witness :
    (min 0 ((1 : Nat) : Int)).toNat = 0 ∧
    TaskQueue.run 0 [(1 : Nat)] (fun x => (.ok x : Except String Nat)) (fun t => t) = [] ∧
    TaskQueue.runClaimed 0 [(1 : Nat)] (fun x => (.ok x : Except String Nat)) (fun t => t) = [] := by
  have := C10_run_nonpositive_concurrency [(1 : Nat)]
    (fun x => (.ok x : Except String Nat)) 0 (fun t => t) (by norm_num) (by simp)
  simpa using this

/-! ### Cascade data model and `CascadeService.createPlan` -/

inductive CiStatus where
  | pending
  | running
  | success
  | failure
  | skipped
  deriving Repr, DecidableEq

inductive CascadeStepStatus where
  | pending
  | updatingDeps
  | installing
  | testing
  | committing
  | pushing
  | waitingCi
  | done
  | failed
  | skipped
  deriving Repr, DecidableEq

/-- One dependency version substitution (shared/types.ts
`CascadeDepUpdate`). -/
structure CascadeDepUpdate where
  npmName : String
  fromVersion : String
  toVersion : String
  deriving Repr, DecidableEq

/-- One node's pending work in a plan (shared/types.ts `CascadeStep`). -/
structure CascadeStep where
  repoId : String
  status : CascadeStepStatus
  commitMessage : String
  depsToUpdate : List CascadeDepUpdate
  publishedVersion : Option String := none
  error : Option String := none
  startedAt : Option String := none
  completedAt : Option String := none
  ciRunUrl : Option String := none
  ciStatus : Option CiStatus := none
  deriving Repr, DecidableEq

inductive LayerMode where
  | parallel
  | sequential
  deriving Repr, DecidableEq

structure CascadeLayer where
  layerIndex : Nat
  mode : LayerMode
  steps : List CascadeStep
  deriving Repr, DecidableEq

structure CascadePlan where
  sourceRepoId : String
  sourceCommitMessage : String
  layers : List CascadeLayer
  totalRepos : Nat
  waitForCi : Bool
  runTests : Bool
  commitPrefix : String
  deriving Repr, DecidableEq

structure CascadePlanOptions where
  waitForCi : Bool
  runTests : Bool
  commitPrefix : String
  parallelLimit : Option Nat := none
  deriving Repr, DecidableEq

/-- JavaScript `x || y` on an optional string: a missing or empty value
falls back to `y`. -/
def jsOrStr (x : Option String) (y : String) : String :=
  match x with
  | none => y
  | some v => if v = "" then y else v

/-- Stable ascending insertion of a key (the effect of
`Array.from(layerMap.keys()).sort((a, b) => a - b)` on distinct keys). -/
def insertSorted (x : Nat) : List Nat → List Nat
  | [] => [x]
  | y :: rest => if x ≤ y then x :: y :: rest else y :: insertSorted x rest

def sortNat (l : List Nat) : List Nat := l.foldr insertSorted []

/-- The distinct layer numbers of the affected set in ascending order
(`layerMap` insertion order is first occurrence; then numerically sorted). -/
def sortedLayerKeys (affected : List AffectedRepo) : List Nat :=
  sortNat ((affected.map (fun a => a.layer)).dedup)

/-- One `CascadeStep` of `createPlan`, built against the running
`resolvedVersions` map: one substitution per dependency entry whose package
name is currently resolved, plus the generated commit message. -/
def mkStep (repos : List Repo) (resolved : List (String × String))
    (commitPref : String) (repoId : String) : CascadeStep :=
  let repo := repoLookup repos repoId
  let depsToUpdate : List CascadeDepUpdate :=
    match repo with
    | some r =>
        r.dependencies.filterMap (fun dep =>
          (alGet resolved dep.npmName).map
            (fun v => ⟨dep.npmName, dep.versionSpec, v⟩))
    | none => []
  let depNames := String.intercalate ", "
    (depsToUpdate.map (fun d => (d.npmName.splitOn "/").getLastD ""))
  { repoId := repoId
    status := .pending
    commitMessage := commitPref ++ "update " ++ (if depNames = "" then repoId else depNames)
    depsToUpdate := depsToUpdate }

/-- The per-layer loop of `createPlan`: build the steps of each layer
against the current `resolvedVersions` map, then extend the map with this
layer's nodes' current local versions before planning the next layer. -/
def buildLayers (repos : List Repo) (affected : List AffectedRepo)
    (commitPref : String) :
    List (String × String) → List Nat → List CascadeLayer
  | _, [] => []
  | resolved, k :: rest =>
      let repoIds := (affected.filter (fun a => a.layer = k)).map (fun a => a.id)
      let steps := repoIds.map (mkStep repos resolved commitPref)
      let resolved' := steps.foldl
        (fun m s =>
          match repoLookup repos s.repoId with
          | some r => (r.npmPackage, r.version) :: m
          | none => m)
        resolved
      { layerIndex := k
        mode := if steps.length > 1 then .parallel else .sequential
        steps := steps } :: buildLayers repos affected commitPref resolved' rest

/-- `CascadeService.createPlan`, with the npm registry as an oracle
`registry : name → latest published version?` (`resolvePublishedVersion`
returns `null` both when the registry has no version and when the lookup
fails).  Besides the plan it returns the list of registry queries made, so
theorems can speak about the version-resolution call being skipped. -/
def createPlan (registry : String → Option String) (sourceRepoId : String)
    (repos : List Repo) (options : Option CascadePlanOptions) :
    CascadePlan × List String :=
  let affected := getAffected repos sourceRepoId
  let sourceRepo := repoLookup repos sourceRepoId
  let sourcePublishedVersion : Option String :=
    match sourceRepo with
    | some r => registry r.npmPackage
    | none => none
  let registryQueries : List String :=
    match sourceRepo with
    | some r => [r.npmPackage]
    | none => []
  let sourceVersion :=
    jsOrStr sourcePublishedVersion
      (jsOrStr (sourceRepo.map (fun r => r.version)) "0.0.0")
  let commitPref :=
    match options with
    | some o => o.commitPrefix
    | none => "deps: "
  let resolvedVersions0 : List (String × String) :=
    match sourceRepo with
    | some r => [(r.npmPackage, sourceVersion)]
    | none => []
  let layers := buildLayers repos affected.affected commitPref resolvedVersions0
    (sortedLayerKeys affected.affected)
  ({ sourceRepoId := sourceRepoId
     sourceCommitMessage := "Source: " ++ sourceRepoId ++ " v" ++ sourceVersion
     layers := layers
     totalRepos := affected.totalCount
     waitForCi := match options with | some o => o.waitForCi | none => false
     runTests := match options with | some o => o.runTests | none => false
     commitPrefix := commitPref },
   registryQueries)

/-- The nodes of the layers strictly before position `i` of a plan's layer
list, in planning order. -/
def earlierNodes (repos : List Repo) (L : List CascadeLayer) (i : Nat) : List Repo :=
  ((L.take i).flatMap (fun l => l.steps)).filterMap (fun s => repoLookup repos s.repoId)

/-- The source's resolved version: the latest published registry version,
falling back to the source's local manifest version when the registry
yields none. -/
def srcResolvedVersion (registry : String → Option String) (src : Repo) : String :=
  (registry src.npmPackage).getD src.version

/-- Spec-side description of the version that is "already resolved" for a
package name when layer `i` of the plan is built: the current local
manifest version of the most recently planned node (strictly earlier
layer) carrying that package name, or else the source's resolved version
when the name is the source's package, or nothing. -/
def specResolved (repos : List Repo) (src : Repo) (srcVersion : String)
    (L : List CascadeLayer) (i : Nat) (name : String) : Option String :=
  match (earlierNodes repos L i).reverse.find? (fun r => r.npmPackage = name) with
  | some r => some r.version
  | none => if src.npmPackage = name then some srcVersion else none

theorem foldl_push_eq (repos : List Repo) :
    ∀ (steps : List CascadeStep) (resolved : List (String × String)),
      steps.foldl
        (fun m s =>
          match repoLookup repos s.repoId with
          | some r => (r.npmPackage, r.version) :: m
          | none => m)
        resolved =
      ((steps.filterMap (fun s => repoLookup repos s.repoId)).map
        (fun r => (r.npmPackage, r.version))).reverse ++ resolved := by
  intro steps
  induction steps with
  | nil => intro resolved; simp
  | cons s rest ih =>
    intro resolved
    rw [List.foldl_cons]
    cases hl : repoLookup repos s.repoId with
    | none => simp [hl, ih]
    | some r =>
      simp only [hl]
      rw [ih]
      simp [hl, List.reverse_cons, List.append_assoc]
theorem alGet_map_pairs :
    ∀ (nodes : List Repo) (name : String),
      alGet (nodes.map (fun r => (r.npmPackage, r.version))) name =
        (nodes.find? (fun r => r.npmPackage = name)).map (fun r => r.version) := by
  intro nodes name
  induction nodes with
  | nil => simp [alGet]
  | cons r rest ih =>
    unfold alGet at *
    rw [List.map_cons]
    by_cases h : r.npmPackage = name
    · rw [List.find?_cons_of_pos _ (by simpa using h),
        List.find?_cons_of_pos _ (by simpa using h)]
      simp
    · rw [List.find?_cons_of_neg _ (by simpa using h),
        List.find?_cons_of_neg _ (by simpa using h)]
      exact ih

theorem alGet_append {β : Type} (A B : List (String × β)) (name : String) :
    alGet (A ++ B) name = (alGet A name).or (alGet B name) := by
  unfold alGet
  rw [List.find?_append]
  cases h : A.find? (fun p => p.1 = name) with
  | none => simp
  | some p => simp

theorem buildLayers_step_char (repos : List Repo) (affected : List AffectedRepo)
    (commitPref : String) :
    ∀ (ks : List Nat) (resolved : List (String × String)) (i : Nat) (layer : CascadeLayer),
      (buildLayers repos affected commitPref resolved ks).get? i = some layer →
      ∀ step ∈ layer.steps, ∀ n, repoLookup repos step.repoId = some n →
      step.depsToUpdate = n.dependencies.filterMap (fun dep =>
        (alGet (((earlierNodes repos
              (buildLayers repos affected commitPref resolved ks) i).map
            (fun r => (r.npmPackage, r.version))).reverse ++ resolved) dep.npmName).map
          (fun v => ⟨dep.npmName, dep.versionSpec, v⟩)) := by
  intro ks
  induction ks with
  | nil =>
    intro resolved i layer hget
    simp [buildLayers] at hget
  | cons k rest ih =>
    intro resolved i layer hget step hstep n hn
    set steps₀ := ((affected.filter (fun a => a.layer = k)).map (fun a => a.id)).map
      (mkStep repos resolved commitPref) with hsteps₀
    set resolved' := steps₀.foldl
      (fun m s =>
        match repoLookup repos s.repoId with
        | some r => (r.npmPackage, r.version) :: m
        | none => m)
      resolved with hres'
    set layer₀ : CascadeLayer :=
      { layerIndex := k
        mode := if steps₀.length > 1 then LayerMode.parallel else LayerMode.sequential
        steps := steps₀ } with hlayer₀
    have hbuild : buildLayers repos affected commitPref resolved (k :: rest) =
        layer₀ :: buildLayers repos affected commitPref resolved' rest := rfl
    rw [hbuild] at hget ⊢
    cases i with
    | zero =>
      have hlayer : layer = layer₀ := by
        have := hget
        simp at this
        exact this.symm
      subst hlayer
      have hzero : earlierNodes repos
          (layer₀ :: buildLayers repos affected commitPref resolved' rest) 0 = [] := by
        simp [earlierNodes]
      rw [hzero]
      simp only [List.map_nil, List.reverse_nil, List.nil_append]
      have hstep' : step ∈ steps₀ := by
        rw [hlayer₀] at hstep
        exact hstep
      rw [hsteps₀] at hstep'
      simp only [List.mem_map] at hstep'
      obtain ⟨rid, _, hmk⟩ := hstep'
      have hrid : step.repoId = rid := by
        rw [← hmk]
        simp [mkStep]
      rw [hrid] at hn
      rw [← hmk]
      simp [mkStep, hn]
    | succ i' =>
      have hget' : (buildLayers repos affected commitPref resolved' rest).get? i' =
          some layer := by
        simpa using hget
      have hmain := ih resolved' i' layer hget' step hstep n hn
      rw [hmain]
      congr 1
      funext dep
      congr 2
      have htake : earlierNodes repos
          (layer₀ :: buildLayers repos affected commitPref resolved' rest) (i' + 1) =
          (steps₀.filterMap (fun s => repoLookup repos s.repoId)) ++
            earlierNodes repos (buildLayers repos affected commitPref resolved' rest) i' := by
        simp [earlierNodes, List.take_succ_cons, List.flatMap_cons, List.filterMap_append,
          hlayer₀]
      rw [htake, hres', foldl_push_eq]
      simp [List.map_append, List.reverse_append, List.append_assoc]

/-- C5: in every plan produced by `createPlan` (for a source node present
in the node set, with non-empty versions), a step for node `n` carries
exactly one version substitution for each dependency entry of `n` whose
package name is already resolved at that point — and the substituted
version is `specResolved`: the current local manifest version of the most
recently planned node of a strictly earlier layer with that package name,
or else, for the source's package name, the source's resolved version
(latest published registry version, falling back to the source's local
manifest version when the registry yields none). -/
theorem C5_createPlan_substitutions
    (registry : String → Option String) (sourceRepoId : String)
    (repos : List Repo) (options : Option CascadePlanOptions)
    (src : Repo) (hsrc : repoLookup repos sourceRepoId = some src)
    (hv : src.version ≠ "")
    (hreg : ∀ v, registry src.npmPackage = some v → v ≠ "") :
    ∀ i layer,
      (createPlan registry sourceRepoId repos options).1.layers.get? i = some layer →
      ∀ step ∈ layer.steps, ∀ n, repoLookup repos step.repoId = some n →
      step.depsToUpdate = n.dependencies.filterMap (fun dep =>
        (specResolved repos src (srcResolvedVersion registry src)
            (createPlan registry sourceRepoId repos options).1.layers i dep.npmName).map
          (fun v => ⟨dep.npmName, dep.versionSpec, v⟩)) := by
  have hsv : jsOrStr (registry src.npmPackage)
      (jsOrStr ((some src).map (fun r => r.version)) "0.0.0") =
      srcResolvedVersion registry src := by
    cases hr : registry src.npmPackage with
    | none => simp [jsOrStr, srcResolvedVersion, hr, hv]
    | some v =>
      have hvne := hreg v hr
      simp [jsOrStr, srcResolvedVersion, hr, hvne]
  obtain ⟨pref, hplan⟩ : ∃ pref,
      (createPlan registry sourceRepoId repos options).1.layers =
      buildLayers repos (getAffected repos sourceRepoId).affected pref
        [(src.npmPackage, srcResolvedVersion registry src)]
        (sortedLayerKeys (getAffected repos sourceRepoId).affected) :=
    ⟨_, by simp only [createPlan, hsrc]; rw [hsv]⟩
  rw [hplan]
  intro i layer hget step hstep n hn
  have hmain := buildLayers_step_char repos (getAffected repos sourceRepoId).affected
    pref (sortedLayerKeys (getAffected repos sourceRepoId).affected)
    [(src.npmPackage, srcResolvedVersion registry src)] i layer hget step hstep n hn
  rw [hmain]
  congr 1
  funext dep
  congr 2
  rw [alGet_append, ← List.map_reverse, alGet_map_pairs]
  unfold specResolved
  cases hf : (earlierNodes repos
      (buildLayers repos (getAffected repos sourceRepoId).affected pref
        [(src.npmPackage, srcResolvedVersion registry src)]
        (sortedLayerKeys (getAffected repos sourceRepoId).affected)) i).reverse.find?
      (fun r => r.npmPackage = dep.npmName) with
  | some r => simp
  | none =>
    simp only [Option.map_none', Option.none_or]
    unfold alGet
    by_cases h : src.npmPackage = dep.npmName
    · rw [List.find?_cons_of_pos _ (by simpa using h)]
      simp [h]
    · rw [List.find?_cons_of_neg _ (by simpa using h)]
      simp [h]

/-- A concrete registry oracle for the C5 witness: the source package
`@test/lib-a` has latest published version `1.2.0`; everything else is
unpublished. -/
def c5registry : String → Option String :=
  fun s => if s = "@test/lib-a" then some "1.2.0" else none

/-- C5, witness: on the spec §8 scenario with the concrete registry above,
the hypotheses hold and every planned step's substitutions match
`specResolved`. -/
theorem C5_createPlan_substitutions_witness :
    (repoLookup scenarioRepos "lib-a" = some scenarioLibA ∧
     scenarioLibA.version ≠ "" ∧
     (∀ v, c5registry scenarioLibA.npmPackage = some v → v ≠ "")) ∧
    (∀ i layer,
      (createPlan c5registry "lib-a" scenarioRepos none).1.layers.get? i = some layer →
      ∀ step ∈ layer.steps, ∀ n, repoLookup scenarioRepos step.repoId = some n →
      step.depsToUpdate = n.dependencies.filterMap (fun dep =>
        (specResolved scenarioRepos scenarioLibA
            (srcResolvedVersion c5registry scenarioLibA)
            (createPlan c5registry "lib-a" scenarioRepos none).1.layers i dep.npmName).map
          (fun v => ⟨dep.npmName, dep.versionSpec, v⟩))) :=
  ⟨⟨by decide, by decide,
    by intro v hv; simp [c5registry, scenarioLibA] at hv; simp [← hv]⟩,
   C5_createPlan_substitutions c5registry "lib-a" scenarioRepos none scenarioLibA
     (by decide) (by decide)
     (by intro v hv; simp [c5registry, scenarioLibA] at hv; simp [← hv])⟩

/-- C9: for a source id absent from the node set no operation throws:
`getAffected` returns an empty affected list with `totalCount` 0,
`getDependencies` and `getDependents` return empty lists, and `createPlan`
still succeeds with an empty layer list, `totalRepos` 0 and no registry
query (the version-resolution call is skipped). -/
theorem C9_unknown_source (repos : List Repo) (registry : String → Option String)
    (repoId : String) (options : Option CascadePlanOptions)
    (h : repoLookup repos repoId = none) :
    (getAffected repos repoId).affected = [] ∧
    (getAffected repos repoId).totalCount = 0 ∧
    getDependencies repos repoId = [] ∧
    getDependents repos repoId = [] ∧
    (createPlan registry repoId repos options).1.layers = [] ∧
    (createPlan registry repoId repos options).1.totalRepos = 0 ∧
    (createPlan registry repoId repos options).2 = [] := by
  have haff : getAffected repos repoId =
      { sourceId := repoId, affected := [], totalCount := 0 } := by
    simp [getAffected, bfsGo, bfsPass, h]
  refine ⟨by rw [haff], by rw [haff], ?_, ?_, ?_, ?_, ?_⟩
  · simp [getDependencies, h]
  · simp [getDependents, h]
  · simp [createPlan, haff, h, sortedLayerKeys, sortNat, buildLayers]
  · simp [createPlan, haff, h]
  · simp [createPlan, h]

/-- C9, witness: the id `ghost` is absent from the scenario node set, and
all four operations degrade gracefully on it. -/
theorem C9_unknown_source_witness :
    repoLookup scenarioRepos "ghost" = none ∧
    ((getAffected scenarioRepos "ghost").affected = [] ∧
     (getAffected scenarioRepos "ghost").totalCount = 0 ∧
     getDependencies scenarioRepos "ghost" = [] ∧
     getDependents scenarioRepos "ghost" = [] ∧
     (createPlan (fun _ => none) "ghost" scenarioRepos none).1.layers = [] ∧
     (createPlan (fun _ => none) "ghost" scenarioRepos none).1.totalRepos = 0 ∧
     (createPlan (fun _ => none) "ghost" scenarioRepos none).2 = []) :=
  ⟨by decide,
   C9_unknown_source scenarioRepos (fun _ => none) "ghost" none (by decide)⟩

/-! ### The execution engine (`CascadeService.executeStep` / `executeLoop` /
`startExecution` / `abort`)

External effects are oracles.  `StepEnv` fixes, for one `executeStep` call,
the outcome of `updatePackageJsonDeps`, the outcome of each spawned command
(`runCommand` resolves to the command's stdout or throws), and the clock
(`new Date().toISOString()`).  `executeStep` additionally returns the
execution-counter deltas (`completedCount`, `failedCount`) and the trace of
commands it spawned, in order, so theorems can speak about `git commit` /
`git push` never being invoked. -/

structure StepEnv where
  updateDeps : Except String Unit
  run : List String → Except String String
  now : String

/-- JavaScript `String.prototype.trim()`: whitespace stripped from both
ends (structural over the character list, so concrete instances evaluate). -/
def strTrim (s : String) : String :=
  ⟨((s.data.dropWhile Char.isWhitespace).reverse.dropWhile Char.isWhitespace).reverse⟩

/-- `CascadeService.executeStep`.  The nested matches mirror the `try`
block: any command that throws lands in the `catch` clause (status
`failed`, the message recorded, `completedAt` stamped, `failedCount++`),
except `git pull --rebase`, whose failure the source swallows.  Returns
(updated step, completedCount delta, failedCount delta, spawned commands). -/
def executeStep (repos : List Repo) (env : StepEnv) (runTests : Bool)
    (step : CascadeStep) : CascadeStep × Nat × Nat × List (List String) :=
  match repoLookup repos step.repoId with
  | none => ({ step with status := .failed, error := some "Repo not found" }, 0, 1, [])
  | some _ =>
    let started := { step with startedAt := some env.now }
    let failWith := fun (tr : List (List String)) (e : String) =>
      ({ started with status := .failed, error := some e, completedAt := some env.now },
       0, 1, tr)
    match env.updateDeps with
    | .error e => failWith [] e
    | .ok _ =>
      match env.run ["pnpm", "install", "--no-frozen-lockfile"] with
      | .error e => failWith [["pnpm", "install", "--no-frozen-lockfile"]] e
      | .ok _ =>
        let tr1 := [["pnpm", "install", "--no-frozen-lockfile"]]
        let afterTest : Except (List (List String) × String) (List (List String)) :=
          if runTests then
            match env.run ["pnpm", "test"] with
            | .error e => .error (tr1 ++ [["pnpm", "test"]], e)
            | .ok _ => .ok (tr1 ++ [["pnpm", "test"]])
          else .ok tr1
        match afterTest with
        | .error te => failWith te.1 te.2
        | .ok tr2 =>
          match env.run ["git", "add", "-A"] with
          | .error e => failWith (tr2 ++ [["git", "add", "-A"]]) e
          | .ok _ =>
            let tr3 := tr2 ++ [["git", "add", "-A"], ["git", "status", "--porcelain"]]
            match env.run ["git", "status", "--porcelain"] with
            | .error e => failWith tr3 e
            | .ok statusOutput =>
              if strTrim statusOutput = "" then
                ({ started with status := .done, completedAt := some env.now }, 1, 0, tr3)
              else
                match env.run ["git", "commit", "-m", step.commitMessage] with
                | .error e => failWith (tr3 ++ [["git", "commit", "-m", step.commitMessage]]) e
                | .ok _ =>
                  let tr4 := tr3 ++ [["git", "commit", "-m", step.commitMessage],
                                     ["git", "pull", "--rebase"]]
                  match env.run ["git", "push"] with
                  | .error e => failWith (tr4 ++ [["git", "push"]]) e
                  | .ok _ =>
                    ({ started with status := .done, completedAt := some env.now },
                     1, 0, tr4 ++ [["git", "push"]])

/-- C6: a step whose update/install/(optional) test and `git add` succeed
and whose staged tree shows no diff (`git status --porcelain` output blank
after trimming) goes directly to `done` with `completedAt` stamped and a
`completedCount` delta of 1, and the spawned-command trace — install,
optional test, add, status — contains no `git commit` and no `git push`. -/
theorem C6_no_diff_shortcut (repos : List Repo) (env : StepEnv)
    (runTests : Bool) (step : CascadeStep) (repo : Repo)
    (hrepo : repoLookup repos step.repoId = some repo)
    (hupd : env.updateDeps = .ok ())
    (hinst : ∃ o, env.run ["pnpm", "install", "--no-frozen-lockfile"] = .ok o)
    (htest : runTests = true → ∃ o, env.run ["pnpm", "test"] = .ok o)
    (hadd : ∃ o, env.run ["git", "add", "-A"] = .ok o)
    (out : String)
    (hstat : env.run ["git", "status", "--porcelain"] = .ok out)
    (htrim : strTrim out = "") :
    executeStep repos env runTests step =
      ({ step with startedAt := some env.now, status := .done,
                   completedAt := some env.now }, 1, 0,
       [["pnpm", "install", "--no-frozen-lockfile"]]
         ++ (if runTests then [["pnpm", "test"]] else [])
         ++ [["git", "add", "-A"], ["git", "status", "--porcelain"]]) ∧
    ∀ c ∈ (executeStep repos env runTests step).2.2.2,
      c.get? 1 ≠ some "commit" ∧ c ≠ ["git", "push"] := by
  obtain ⟨o1, hinst⟩ := hinst
  obtain ⟨o3, hadd⟩ := hadd
  have hmain : executeStep repos env runTests step =
      ({ step with startedAt := some env.now, status := .done,
                   completedAt := some env.now }, 1, 0,
       [["pnpm", "install", "--no-frozen-lockfile"]]
         ++ (if runTests then [["pnpm", "test"]] else [])
         ++ [["git", "add", "-A"], ["git", "status", "--porcelain"]]) := by
    unfold executeStep
    rw [hrepo]
    cases hRT : runTests with
    | false => simp [hRT, hupd, hinst, hadd, hstat, htrim]
    | true =>
        obtain ⟨o2, ht⟩ := htest hRT
        simp [hRT, hupd, hinst, ht, hadd, hstat, htrim]
  refine ⟨hmain, ?_⟩
  rw [hmain]
  intro c hc
  simp only [List.mem_append, List.mem_singleton, List.mem_cons,
    List.not_mem_nil, or_false] at hc
  rcases hc with (hc | hc) | hc | hc
  · subst hc; exact ⟨by decide, by decide⟩
  · cases runTests with
    | false => simp at hc
    | true =>
        simp at hc
        subst hc; exact ⟨by decide, by decide⟩
  · subst hc; exact ⟨by decide, by decide⟩
  · subst hc; exact ⟨by decide, by decide⟩

/-- A concrete `StepEnv` for the C6 witness: every command succeeds and the
staged tree shows no diff (`git status --porcelain` prints nothing). -/
def c6env : StepEnv :=
  { updateDeps := .ok ()
    run := fun c => if c = ["git", "status", "--porcelain"] then .ok "" else .ok "done"
    now := "2024-01-01T00:00:00.000Z" }

def c6step : CascadeStep :=
  { repoId := "lib-b", status := .pending
    commitMessage := "deps: update lib-a", depsToUpdate := [] }

/-- C6, witness: with every command succeeding and a blank porcelain output,
the scenario step for `lib-b` (tests enabled) short-circuits to `done`. -/
theorem C6_no_diff_shortcut_witness :
    executeStep scenarioRepos c6env true c6step =
      ({ c6step with startedAt := some c6env.now, status := .done,
                     completedAt := some c6env.now }, 1, 0,
       [["pnpm", "install", "--no-frozen-lockfile"]]
         ++ (if true then [["pnpm", "test"]] else [])
         ++ [["git", "add", "-A"], ["git", "status", "--porcelain"]]) ∧
    ∀ c ∈ (executeStep scenarioRepos c6env true c6step).2.2.2,
      c.get? 1 ≠ some "commit" ∧ c ≠ ["git", "push"] :=
  C6_no_diff_shortcut scenarioRepos c6env true c6step scenarioLibB
    (by decide) rfl ⟨"done", rfl⟩ (fun _ => ⟨"done", rfl⟩) ⟨"done", rfl⟩
    "" rfl (by decide)

inductive ExecStatus where
  | running
  | paused
  | completed
  | failed
  | aborted
  deriving Repr, DecidableEq

/-- shared/types.ts `CascadeExecution` (the `plan` travels inside it; the
loop reads `plan.runTests` / `plan.waitForCi` and rewrites `plan.layers`
as step objects are updated in place). -/
structure CascadeExecution where
  id : String
  plan : CascadePlan
  status : ExecStatus
  currentLayerIndex : Nat
  completedCount : Nat
  failedCount : Nat
  skippedCount : Nat
  startedAt : String
  completedAt : Option String := none
  error : Option String := none
  deriving Repr, DecidableEq

/-- The effect of `queue.run(pendingSteps, worker)` on one layer's steps
(position `idx` in the layer's list): a step already `done`/`skipped` is
not in `pendingSteps` and stays put; the worker returns before touching a
step whose pre-step abort check fires; every other step is replaced by its
`executeStep` outcome (under the per-step oracle `envAt idx`), and the
counter deltas are summed.  Each worker touches only its own step object,
so the queue's completion order does not affect this outcome. -/
def runLayerGo (repos : List Repo) (runTests : Bool) (envAt : Nat → StepEnv)
    (abortStep : Nat → Bool) : Nat → List CascadeStep → List CascadeStep × Nat × Nat
  | _, [] => ([], 0, 0)
  | idx, s :: rest =>
      let r := runLayerGo repos runTests envAt abortStep (idx + 1) rest
      if s.status = .done ∨ s.status = .skipped then (s :: r.1, r.2)
      else if abortStep idx then (s :: r.1, r.2)
      else
        let e := executeStep repos (envAt idx) runTests s
        (e.1 :: r.1, e.2.1 + r.2.1, e.2.2.1 + r.2.2)

def runLayer (repos : List Repo) (runTests : Bool) (envAt : Nat → StepEnv)
    (abortStep : Nat → Bool) (steps : List CascadeStep) :
    List CascadeStep × Nat × Nat :=
  runLayerGo repos runTests envAt abortStep 0 steps

/-- The `for` loop of `CascadeService.executeLoop`, fuel-indexed on the
remaining layer count (`fuel ≥ layers.length - i + 1` makes the fuel bound
unreachable).  Oracles: `envAt i idx` the external effects of layer `i`'s
step at position `idx`; `abortL i` / `pauseL i` the abort/pause signal read
at layer `i`'s boundary checks; `abortStep i idx` the signal read by the
worker before step `idx`; `ciUpdate i` what `waitForCi` leaves in a step it
polls for.  `now` is the clock. -/
def execLoopGo (repos : List Repo) (envAt : Nat → Nat → StepEnv)
    (abortL pauseL : Nat → Bool) (abortStep : Nat → Nat → Bool)
    (ciUpdate : Nat → CascadeStep → CascadeStep) (now : String) :
    Nat → Nat → CascadeExecution → CascadeExecution
  | 0, _, exec => exec
  | fuel + 1, i, exec =>
      match exec.plan.layers.get? i with
      | none => { exec with status := .completed, completedAt := some now }
      | some layer =>
          if abortL i then { exec with status := .aborted, completedAt := some now }
          else if pauseL i then { exec with status := .paused, currentLayerIndex := i }
          else if (layer.steps.filter
              (fun s => ¬(s.status = .done ∨ s.status = .skipped))).isEmpty then
            execLoopGo repos envAt abortL pauseL abortStep ciUpdate now
              fuel (i + 1) { exec with currentLayerIndex := i }
          else
            let r := runLayer repos exec.plan.runTests (envAt i) (abortStep i) layer.steps
            let exec' := { exec with
              currentLayerIndex := i
              plan := { exec.plan with
                layers := exec.plan.layers.set i { layer with steps := r.1 } }
              completedCount := exec.completedCount + r.2.1
              failedCount := exec.failedCount + r.2.2 }
            if (r.1.filter (fun s => s.status = .failed)).isEmpty then
              let ciSteps := r.1.map (fun s =>
                if s.status = .done ∧ (s.publishedVersion.getD "") = ""
                then ciUpdate i s else s)
              let exec'' :=
                if exec.plan.waitForCi then
                  { exec' with plan := { exec'.plan with
                      layers := exec'.plan.layers.set i { layer with steps := ciSteps } } }
                else exec'
              execLoopGo repos envAt abortL pauseL abortStep ciUpdate now
                fuel (i + 1) exec''
            else { exec' with status := .paused }

/-- `CascadeService.executeLoop` entered at `exec.currentLayerIndex` (as
`startExecution` and `resume` do), with fuel strictly above the layer
count so the fuel bound is unreachable. -/
def executeLoop (repos : List Repo) (envAt : Nat → Nat → StepEnv)
    (abortL pauseL : Nat → Bool) (abortStep : Nat → Nat → Bool)
    (ciUpdate : Nat → CascadeStep → CascadeStep) (now : String)
    (exec : CascadeExecution) : CascadeExecution :=
  execLoopGo repos envAt abortL pauseL abortStep ciUpdate now
    (exec.plan.layers.length + 1) exec.currentLayerIndex exec

/-- The `catch` handler `startExecution` installs on the fire-and-forget
`executeLoop` promise: an engine-level exception marks the whole execution
`failed` with the message recorded and `completedAt` stamped. -/
def onEngineError (exec : CascadeExecution) (err now : String) : CascadeExecution :=
  { exec with status := .failed, error := some err, completedAt := some now }

/-- Every exit of the execution loop sets the status explicitly to
`aborted`, `paused` or `completed` — with fuel above the remaining layer
count the fuel bound is unreachable, so the loop can never leave status
`failed` (or anything else) behind. -/
theorem execLoopGo_status (repos : List Repo) (envAt : Nat → Nat → StepEnv)
    (abortL pauseL : Nat → Bool) (abortStep : Nat → Nat → Bool)
    (ciUpdate : Nat → CascadeStep → CascadeStep) (now : String) :
    ∀ fuel i exec, exec.plan.layers.length - i < fuel →
      (execLoopGo repos envAt abortL pauseL abortStep ciUpdate now fuel i exec).status
          = .aborted ∨
      (execLoopGo repos envAt abortL pauseL abortStep ciUpdate now fuel i exec).status
          = .paused ∨
      (execLoopGo repos envAt abortL pauseL abortStep ciUpdate now fuel i exec).status
          = .completed := by
  intro fuel
  induction fuel with
  | zero => intro i exec h; omega
  | succ f ih =>
      intro i exec h
      rw [execLoopGo]
      cases hL : exec.plan.layers.get? i with
      | none => simp
      | some layer =>
          have hi : i < exec.plan.layers.length := by
            by_contra hge
            rw [List.get?_eq_none.mpr (by omega)] at hL
            exact Option.noConfusion hL
          by_cases hA : abortL i = true
          · simp [hA]
          · rw [Bool.not_eq_true] at hA
            by_cases hP : pauseL i = true
            · simp [hA, hP]
            · rw [Bool.not_eq_true] at hP
              by_cases hE : (layer.steps.filter
                  (fun s => ¬(s.status = .done ∨ s.status = .skipped))).isEmpty = true
              · simp only [hA, hP, hE, Bool.false_eq_true, if_false, if_true]
                exact ih (i + 1) _ (by simp; omega)
              · rw [Bool.not_eq_true] at hE
                by_cases hF : (((runLayer repos exec.plan.runTests (envAt i)
                    (abortStep i) layer.steps).1).filter
                      (fun s => s.status = .failed)).isEmpty = true
                · simp only [hA, hP, hE, hF, Bool.false_eq_true, if_false, if_true]
                  by_cases hCi : exec.plan.waitForCi = true
                  · simp only [hCi, if_true]
                    exact ih (i + 1) _ (by simp [List.length_set]; omega)
                  · rw [Bool.not_eq_true] at hCi
                    simp only [hCi, Bool.false_eq_true, if_false]
                    exact ih (i + 1) _ (by simp [List.length_set]; omega)
                · rw [Bool.not_eq_true] at hF
                  simp only [hA, hP, hE, hF, Bool.false_eq_true, if_false, if_true]
                  simp

/-- C2: (a) the execution loop itself never leaves status `failed` — every
exit is `aborted`, `paused` or `completed`, so per-step failures never fail
the execution; (b) when a layer finishes with at least one step `failed`,
the loop stops with status `paused` and `currentLayerIndex` retained at
that layer (counters updated, the layer's steps rewritten in place); (c)
status `failed` arises only from `startExecution`'s catch handler on an
engine-level exception, which stamps the message and `completedAt`. -/
theorem C2_layer_failure_pauses_never_failed
    (repos : List Repo) (envAt : Nat → Nat → StepEnv)
    (abortL pauseL : Nat → Bool) (abortStep : Nat → Nat → Bool)
    (ciUpdate : Nat → CascadeStep → CascadeStep) (now : String) :
    (∀ exec,
      (executeLoop repos envAt abortL pauseL abortStep ciUpdate now exec).status
        ≠ .failed) ∧
    (∀ fuel i exec layer steps' c f,
      exec.plan.layers.get? i = some layer →
      abortL i = false → pauseL i = false →
      (layer.steps.filter
        (fun s => ¬(s.status = .done ∨ s.status = .skipped))).isEmpty = false →
      runLayer repos exec.plan.runTests (envAt i) (abortStep i) layer.steps
        = (steps', c, f) →
      (steps'.filter (fun s => s.status = .failed)).isEmpty = false →
      execLoopGo repos envAt abortL pauseL abortStep ciUpdate now (fuel + 1) i exec =
        { exec with
          status := .paused
          currentLayerIndex := i
          plan := { exec.plan with
            layers := exec.plan.layers.set i { layer with steps := steps' } }
          completedCount := exec.completedCount + c
          failedCount := exec.failedCount + f }) ∧
    (∀ exec err t,
      (onEngineError exec err t).status = .failed ∧
      (onEngineError exec err t).error = some err ∧
      (onEngineError exec err t).completedAt = some t) := by
  refine ⟨?_, ?_, ?_⟩
  · intro exec heq
    have h3 := execLoopGo_status repos envAt abortL pauseL abortStep ciUpdate now
      (exec.plan.layers.length + 1) exec.currentLayerIndex exec (by omega)
    unfold executeLoop at heq
    rcases h3 with h | h | h <;> rw [h] at heq <;> exact ExecStatus.noConfusion heq
  · intro fuel i exec layer steps' c f hL hA hP hpend hrun hfail
    rw [execLoopGo, hL]
    simp only [hA, hP, hpend, hrun, hfail, Bool.false_eq_true, if_false]
  · intro exec err t
    exact ⟨rfl, rfl, rfl⟩

/-- Concrete data for the C2 witness: a one-layer plan whose single step
fails (the dependency update throws `boom`). -/
def c2step : CascadeStep :=
  { repoId := "lib-b", status := .pending
    commitMessage := "deps: update lib-a", depsToUpdate := [] }

def c2layer : CascadeLayer := { layerIndex := 1, mode := .sequential, steps := [c2step] }

def c2plan : CascadePlan :=
  { sourceRepoId := "lib-a", sourceCommitMessage := "Source: lib-a v1.0.0"
    layers := [c2layer], totalRepos := 1
    waitForCi := false, runTests := false, commitPrefix := "deps: " }

def c2exec : CascadeExecution :=
  { id := "cascade-1", plan := c2plan, status := .running
    currentLayerIndex := 0, completedCount := 0, failedCount := 0
    skippedCount := 0, startedAt := "2024-01-01T00:00:00.000Z" }

def c2env : StepEnv :=
  { updateDeps := .error "boom", run := fun _ => .ok "", now := "T" }

def c2failedStep : CascadeStep :=
  { c2step with
    startedAt := some "T"
    status := .failed
    error := some "boom"
    completedAt := some "T" }

/-- C2, witness: with the single step of layer 0 failing, the loop run on
the concrete execution never reports `failed`, and one unrolling lands on
`paused` at layer 0 with the failure recorded. -/
theorem C2_layer_failure_pauses_never_failed_witness :
    (executeLoop scenarioRepos (fun _ _ => c2env) (fun _ => false) (fun _ => false)
        (fun _ _ => false) (fun _ s => s) "T" c2exec).status ≠ .failed ∧
    execLoopGo scenarioRepos (fun _ _ => c2env) (fun _ => false) (fun _ => false)
        (fun _ _ => false) (fun _ s => s) "T" 1 0 c2exec =
      { c2exec with
        status := .paused
        currentLayerIndex := 0
        plan := { c2plan with
          layers := c2plan.layers.set 0 { c2layer with steps := [c2failedStep] } }
        completedCount := 0
        failedCount := 1 } :=
  ⟨(C2_layer_failure_pauses_never_failed scenarioRepos (fun _ _ => c2env)
      (fun _ => false) (fun _ => false) (fun _ _ => false) (fun _ s => s) "T").1 c2exec,
   (C2_layer_failure_pauses_never_failed scenarioRepos (fun _ _ => c2env)
      (fun _ => false) (fun _ => false) (fun _ _ => false) (fun _ s => s) "T").2.1
     0 0 c2exec c2layer [c2failedStep] 0 1 rfl rfl rfl (by decide) (by decide) (by decide)⟩

/-- The `CascadeService` fields `abort` touches: the `executions`,
`abortSignals` and `pauseSignals` maps (association lists, `set` conses in
front) and a log of `saveToHistory` calls (by execution id, in order). -/
structure ServiceState where
  executions : List (String × CascadeExecution)
  abortSignals : List (String × Bool)
  pauseSignals : List (String × Bool)
  historySaves : List String
  deriving Repr

/-- `CascadeService.abort`: refuse (returning `false`) when the id is
unknown or the execution is neither `running` nor `paused`; otherwise set
the abort signal and, when the execution is `paused`, immediately mark it
`aborted`, stamp `completedAt` and persist one history entry. -/
def CascadeService.abort (st : ServiceState) (id : String) (now : String) :
    ServiceState × Bool :=
  match alGet st.executions id with
  | none => (st, false)
  | some exec =>
      if exec.status ≠ .running ∧ exec.status ≠ .paused then (st, false)
      else
        let st1 := { st with abortSignals := (id, true) :: st.abortSignals }
        if exec.status = .paused then
          ({ st1 with
             executions :=
               (id, { exec with status := .aborted, completedAt := some now })
                 :: st1.executions
             historySaves := st1.historySaves ++ [id] }, true)
        else (st1, true)

/-- C7: aborting a `paused` execution immediately marks it `aborted` with
`completedAt` stamped and appends exactly one history-save entry; aborting
a `running` execution only raises the abort flag — the executions map and
history log are untouched — and the loop honours the flag at the next layer
boundary by switching to `aborted` there; aborting an unknown id or an
execution in a terminal status returns `false` and changes nothing. -/
theorem C7_abort_semantics (st : ServiceState) (id now : String)
    (repos : List Repo) (envAt : Nat → Nat → StepEnv)
    (abortL pauseL : Nat → Bool) (abortStep : Nat → Nat → Bool)
    (ciUpdate : Nat → CascadeStep → CascadeStep) :
    (∀ exec, alGet st.executions id = some exec → exec.status = .paused →
      (CascadeService.abort st id now).2 = true ∧
      alGet (CascadeService.abort st id now).1.executions id =
        some { exec with status := .aborted, completedAt := some now } ∧
      (CascadeService.abort st id now).1.historySaves = st.historySaves ++ [id] ∧
      alGet (CascadeService.abort st id now).1.abortSignals id = some true) ∧
    (∀ exec, alGet st.executions id = some exec → exec.status = .running →
      (CascadeService.abort st id now).2 = true ∧
      (CascadeService.abort st id now).1.executions = st.executions ∧
      (CascadeService.abort st id now).1.historySaves = st.historySaves ∧
      alGet (CascadeService.abort st id now).1.abortSignals id = some true) ∧
    (∀ fuel i exec layer, exec.plan.layers.get? i = some layer →
      abortL i = true →
      execLoopGo repos envAt abortL pauseL abortStep ciUpdate now (fuel + 1) i exec =
        { exec with status := .aborted, completedAt := some now }) ∧
    (alGet st.executions id = none →
      CascadeService.abort st id now = (st, false)) ∧
    (∀ exec, alGet st.executions id = some exec →
      exec.status ≠ .running → exec.status ≠ .paused →
      CascadeService.abort st id now = (st, false)) := by
  refine ⟨?_, ?_, ?_, ?_, ?_⟩
  · intro exec hget hp
    unfold CascadeService.abort
    rw [hget]
    simp [hp, alGet]
  · intro exec hget hr
    unfold CascadeService.abort
    rw [hget]
    simp [hr, alGet]
  · intro fuel i exec layer hL hA
    rw [execLoopGo, hL]
    simp [hA]
  · intro hnone
    unfold CascadeService.abort
    rw [hnone]
  · intro exec hget hnr hnp
    unfold CascadeService.abort
    rw [hget]
    simp [hnr, hnp]

def c7paused : CascadeExecution := { c2exec with id := "e1", status := .paused }

def c7st : ServiceState :=
  { executions := [("e1", c7paused)]
    abortSignals := [("e1", false)]
    pauseSignals := [("e1", false)]
    historySaves := [] }

/-- C7, witness: aborting the concrete paused execution `e1` succeeds,
marks it `aborted` with `completedAt` stamped, appends exactly one history
entry and raises its abort flag. -/
theorem C7_abort_semantics_witness :
    (CascadeService.abort c7st "e1" "T").2 = true ∧
    alGet (CascadeService.abort c7st "e1" "T").1.executions "e1" =
      some { c7paused with status := .aborted, completedAt := some "T" } ∧
    (CascadeService.abort c7st "e1" "T").1.historySaves = c7st.historySaves ++ ["e1"] ∧
    alGet (CascadeService.abort c7st "e1" "T").1.abortSignals "e1" = some true :=
  (C7_abort_semantics c7st "e1" "T" scenarioRepos (fun _ _ => c2env)
    (fun _ => true) (fun _ => false) (fun _ _ => false) (fun _ s => s)).1
    c7paused (by decide) (by decide)
